import Mathlib

/-!
# Verification of the embedding-index pipeline

A shallow embedding of `crates/semantic_index/src/embedding_index.rs`:
the full-scan sorted merge (`scan_entries`), the incremental scan
(`scan_updated_entries`), the batched embedder (`embed_files`), the
persister (`persist_embeddings`), the store accessors (`paths`,
`chunks_for_path`) and the chunker's format dispatch (`chunk_files` over
`MARKITDOWN_EXTENSIONS`).

The on-disk heed store is modelled as an association list sorted by key
in ascending byte order; `MTime` is an opaque comparable token, here a
natural number; the embedding provider is a function from a batch of
texts to an optional list of vectors (`none` models a provider error,
mirroring `log_err` turning `Result` into `Option`). Everything the
pipeline does with content digests, vectors or chunk byte ranges is kept
abstract because the source treats them as opaque too.
-/

namespace AutoTender

/-- Modification token. The source's `fs::MTime` is opaque and only
compared for equality, so a natural number models it. -/
abbrev MTime := Nat

/-- A chunk produced by the chunker collaborator: a byte range into the
file text plus a content digest (`chunking::Chunk`). -/
structure Chunk where
  rangeStart : Nat
  rangeEnd : Nat
  digest : Nat
deriving DecidableEq

/-- An embedding vector, opaque to the pipeline. -/
structure Embedding where
  vec : Nat
deriving DecidableEq

/-- `EmbeddedChunk`: a chunk paired with its embedding. -/
structure EmbeddedChunk where
  chunk : Chunk
  embedding : Embedding
deriving DecidableEq

/-- `EmbeddedFile`: the persisted record (value type of the store). -/
structure EmbeddedFile where
  path : String
  mtime : Option MTime
  chunks : List EmbeddedChunk
  text : String
deriving DecidableEq

/-- A worktree entry as the scan sees it: id, path, optional mtime, and
whether it is a file (`Entry::is_file`). -/
structure Entry where
  id : Nat
  path : String
  mtime : Option MTime
  isFile : Bool
deriving DecidableEq

/-- `std::ops::Bound`, as used for deletion ranges. The source only ever
constructs `Included` and `Unbounded`; `Excluded` is carried for
fidelity to the type. -/
inductive Bound (α : Type) where
  | included (a : α)
  | excluded (a : α)
  | unbounded
deriving DecidableEq

/-- A deletion range: `(start bound, end bound)` over the key space. -/
abbrev KeyRange := Bound String × Bound String

/-- `db_key_for_path`: the store key of a path, with `/` replaced by the
NUL character (the source's `to_string_lossy().replace('/', "\x00")`;
the pattern is a single character, so a character map is the same
function). -/
def dbKeyForPath (path : String) : String :=
  String.mk (path.data.map (fun c => if c = '/' then Char.ofNat 0 else c))

/-- Byte-string key comparison, kernel-computable. Core `String.LT` is
definitionally lexicographic order on `.data`, so this agrees with `<`
(`keyLtB_iff` below). -/
def keyLtB (a b : String) : Bool := decide (a.data < b.data)

/-- Non-strict key comparison, as the complement of `keyLtB`. -/
def keyLeB (a b : String) : Bool := !(keyLtB b a)

/-- The persisted store: an association list of `(key, record)` pairs,
iterated in ascending key order like the heed database. -/
abbrev Store := List (String × EmbeddedFile)

/-- The keys of a store, in iteration order. -/
def storeKeys (db : Store) : List String := db.map Prod.fst

/-- The store invariant: keys strictly ascending (heed iterates a
byte-ordered key space with unique keys). -/
abbrev SortedKeys (db : Store) : Prop :=
  db.Pairwise (fun a b => keyLtB a.1 b.1 = true)

/-- The scan precondition from the spec: live files arrive with strictly
ascending store keys. -/
abbrev SortedLive (live : List Entry) : Prop :=
  live.Pairwise (fun a b => keyLtB (dbKeyForPath a.path) (dbKeyForPath b.path) = true)

/-- Whether a key ought to be deleted by a range, mirroring
`heed delete_range` over `(Bound, Bound)`. -/
def inRange (r : KeyRange) (k : String) : Bool :=
  (match r.1 with
    | Bound.included a => keyLeB a k
    | Bound.excluded a => keyLtB a k
    | Bound.unbounded => true)
  &&
  (match r.2 with
    | Bound.included b => keyLeB k b
    | Bound.excluded b => keyLtB k b
    | Bound.unbounded => true)

/-- Point lookup in the store (`db.get`). -/
def lookupFile : Store → String → Option EmbeddedFile
  | [], _ => none
  | (k, f) :: rest, key => if key = k then some f else lookupFile rest key

/-- The stored mtime for a key: `none` when there is no record or the
record's mtime is absent. -/
def storedMtime (db : Store) (key : String) : Option MTime :=
  (lookupFile db key).bind EmbeddedFile.mtime

/-! ## The full scan (`scan_entries`)

The source walks the live files and the db iterator together, keeping a
cursor into the db and an optional open deletion range. `scanConsume`
is the inner `while let Some(db_entry) = db_entries.peek()` loop for one
live entry; `scanGo` is the outer `for entry in worktree.files` loop
plus the trailing unbounded range. -/

/-- Result of the inner cursor loop for one live entry. -/
structure ConsumeResult where
  savedMtime : Option MTime
  dbRest : Store
  pending : Option KeyRange
  emitted : List KeyRange
deriving DecidableEq

/-- The `Ordering::Less` arm's update of the open deletion range:
extend an open range's end to the consumed key, or open a fresh
single-key range. -/
def pendExtend (pending : Option KeyRange) (dbPath : String) : KeyRange :=
  match pending with
  | some r => (r.1, Bound.included dbPath)
  | none => (Bound.included dbPath, Bound.included dbPath)

/-- The inner loop of `scan_entries`: consume db keys that sort before
the entry's key into the open deletion range, flush the range on an
equal key (capturing the saved mtime), stop on a greater key. The
flush is `pending.toList`: the send happens only when a range is
open. -/
def scanConsume (entryKey : String) : Store → Option KeyRange → ConsumeResult
  | [], pending => ⟨none, [], pending, []⟩
  | (dbPath, dbFile) :: rest, pending =>
    if keyLtB dbPath entryKey then
      scanConsume entryKey rest (some (pendExtend pending dbPath))
    else if dbPath = entryKey then
      ⟨dbFile.mtime, rest, none, pending.toList⟩
    else
      ⟨none, (dbPath, dbFile) :: rest, pending, []⟩

/-- The scan's outputs: the `updated_entries` stream, the
`deleted_entry_ranges` stream, and the entry ids registered in the
in-flight `IndexingEntrySet` (one `insert` per emitted update). -/
structure ScanOutput where
  updates : List Entry
  ranges : List KeyRange
  registered : List Nat
deriving DecidableEq

/-- The outer loop of `scan_entries`: after the cursor loop, an entry
whose mtime differs from the saved one is registered and emitted; after
the live files, a remaining db entry starts one final unbounded range.
A still-open pending range is dropped at that point, exactly as in the
source, where the local `deletion_range` is only sent on an equal
key. -/
def scanGo : List Entry → Store → Option KeyRange → ScanOutput
  | [], db, _pending =>
    match db with
    | [] => ⟨[], [], []⟩
    | (dbPath, _) :: _ => ⟨[], [(Bound.included dbPath, Bound.unbounded)], []⟩
  | entry :: restLive, db, pending =>
    let step := scanConsume (dbKeyForPath entry.path) db pending
    let restOut := scanGo restLive step.dbRest step.pending
    if entry.mtime ≠ step.savedMtime then
      ⟨entry :: restOut.updates, step.emitted ++ restOut.ranges,
        entry.id :: restOut.registered⟩
    else
      ⟨restOut.updates, step.emitted ++ restOut.ranges, restOut.registered⟩

/-- `scan_entries`: full scan of a store against the live file list. -/
def scanEntries (db : Store) (live : List Entry) : ScanOutput :=
  scanGo live db none

/-! ## The incremental scan (`scan_updated_entries`) -/

/-- `project::PathChange`. -/
inductive PathChange where
  | added
  | removed
  | updated
  | addedOrUpdated
  | loaded
deriving DecidableEq

/-- `scan_updated_entries`: walk the change set; `Added`, `Updated` and
`AddedOrUpdated` emit the worktree entry when it exists and is a file;
`Removed` emits a single-key deletion range; `Loaded` does nothing. The
worktree snapshot is its `entry_for_id` function. -/
def scanUpdatedEntries (entryForId : Nat → Option Entry) :
    List (String × Nat × PathChange) → ScanOutput
  | [] => ⟨[], [], []⟩
  | (path, entryId, status) :: rest =>
    let restOut := scanUpdatedEntries entryForId rest
    match status with
    | .added | .updated | .addedOrUpdated =>
      match entryForId entryId with
      | some entry =>
        if entry.isFile then
          ⟨entry :: restOut.updates, restOut.ranges, entry.id :: restOut.registered⟩
        else
          restOut
      | none => restOut
    | .removed =>
      ⟨restOut.updates,
        (Bound.included (dbKeyForPath path), Bound.included (dbKeyForPath path))
          :: restOut.ranges,
        restOut.registered⟩
    | .loaded => restOut

/-! ## The embedder (`embed_files`)

The source drains the chunked-file channel in timed micro-batches of at
most 512 files; what follows models the processing of one such batch
(`while let Some(chunked_files) = chunked_file_batches.next()` body):
flatten every file's chunks, call the provider on sub-batches of at
most `batch_size`, then reassemble per file, emitting only files whose
every chunk received an embedding. -/

/-- `TextToEmbed`: chunk text plus digest, as handed to the provider. -/
structure TextToEmbed where
  text : String
  digest : Nat
deriving DecidableEq

/-- The embedding provider collaborator: a declared batch size and a
batched embed call. `none` models a provider error (the source passes
the `Result` through `log_err`, which logs and yields `None`). -/
structure EmbeddingProvider where
  batchSize : Nat
  embed : List TextToEmbed → Option (List Embedding)

/-- A chunked file as produced by the chunker stage. `handleId` stands
for the `IndexingEntryHandle` the record carries. -/
structure ChunkedFile where
  path : String
  mtime : Option MTime
  handleId : Nat
  text : String
  chunks : List Chunk
deriving DecidableEq

/-- Indexing a chunk's byte range out of the file text, modelling
`file.text[chunk.range]`. -/
def sliceText (s : String) (a b : Nat) : String :=
  String.mk ((s.data.drop a).take (b - a))

/-- The `TextToEmbed` values of one file, in chunk order. -/
def fileTextsToEmbed (file : ChunkedFile) : List TextToEmbed :=
  file.chunks.map (fun chunk =>
    ⟨sliceText file.text chunk.rangeStart chunk.rangeEnd, chunk.digest⟩)

/-- The flattened chunk sequence of a micro-batch (`flat_map` over the
batch's files). -/
def flatChunks (files : List ChunkedFile) : List TextToEmbed :=
  (files.map fileTextsToEmbed).flatten

/-- Splitting a list into consecutive pieces of at most `n` elements,
as `slice::chunks(n)` does. Structural recursion on a fuel bounded by
the list length keeps the function kernel-evaluable; every step with
`0 < n` consumes at least one element, so fuel `xs.length` is exact
(`chunksOfGo_eq_of_le`). The source panics when `n = 0` (the provider's
batch size is positive); the `n = 0` branch only keeps the model total
and sits outside every theorem's hypotheses. -/
def chunksOfGo {α : Type} (n : Nat) : Nat → List α → List (List α)
  | _, [] => []
  | 0, x :: rest => [x :: rest]
  | fuel + 1, x :: rest =>
    if n = 0 then [x :: rest]
    else (x :: rest).take n :: chunksOfGo n fuel ((x :: rest).drop n)

/-- `slice::chunks(n)` over a list. -/
def chunksOf {α : Type} (n : Nat) (xs : List α) : List (List α) :=
  chunksOfGo n xs.length xs

/-- One provider call for one sub-batch: on success with the expected
count the embeddings are kept; an error, or a count mismatch, marks the
whole sub-batch failed (`None` per chunk). -/
def subBatchResult (p : EmbeddingProvider) (batch : List TextToEmbed) :
    List (Option Embedding) :=
  match p.embed batch with
  | some es => if es.length = batch.length then es.map some else List.replicate batch.length none
  | none => List.replicate batch.length none

/-- The `for embedding_batch in chunks.chunks(batch_size)` loop: the
flat verdict list, one `Option Embedding` per flattened chunk. -/
def computeEmbeddings (p : EmbeddingProvider) (chunks : List TextToEmbed) :
    List (Option Embedding) :=
  ((chunksOf p.batchSize chunks).map (subBatchResult p)).flatten

/-- Result of replaying one file against the embedding iterator. -/
structure ReassembleResult where
  chunks : List EmbeddedChunk
  allEmbedded : Bool
  rest : List (Option Embedding)
deriving DecidableEq

/-- One file's pass over the shared embedding iterator
(`chunked_file.chunks.into_iter().zip(embeddings.by_ref())`): a `some`
verdict pushes an `EmbeddedChunk`, a `none` clears the
`embedded_all_chunks` flag, and — exactly like the `zip` — an exhausted
iterator ends the walk with the flag untouched. -/
def reassembleFile : List Chunk → List (Option Embedding) → ReassembleResult
  | [], embs => ⟨[], true, embs⟩
  | _ :: _, [] => ⟨[], true, []⟩
  | c :: cs, some e :: es =>
    let r := reassembleFile cs es
    ⟨⟨c, e⟩ :: r.chunks, r.allEmbedded, r.rest⟩
  | _ :: cs, none :: es =>
    let r := reassembleFile cs es
    ⟨r.chunks, false, r.rest⟩

/-- The `for chunked_file in chunked_files` reassembly loop: each file
consumes its chunks' verdicts from the shared iterator and is emitted
only when all of them were embeddings. -/
def reassemble : List ChunkedFile → List (Option Embedding) → List EmbeddedFile
  | [], _ => []
  | file :: rest, embs =>
    let r := reassembleFile file.chunks embs
    if r.allEmbedded then
      ⟨file.path, file.mtime, r.chunks, file.text⟩ :: reassemble rest r.rest
    else
      reassemble rest r.rest

/-- `embed_files` on one micro-batch: the emitted `EmbeddedFile`s, in
batch order. -/
def embedFilesBatch (p : EmbeddingProvider) (files : List ChunkedFile) :
    List EmbeddedFile :=
  reassemble files (computeEmbeddings p (flatChunks files))

/-! ## The persister (`persist_embeddings`)

The source's `select_biased!` loop applies whichever channel is ready:
an arbitrary interleaving of the deletion-range stream and the
embedded-file stream, each item its own committed transaction. The
interleaving is modelled as an explicit operation list constrained to
contain exactly the two streams in order. -/

/-- One persister transaction. -/
inductive PersistOp where
  | del (range : KeyRange)
  | put (file : EmbeddedFile)
deriving DecidableEq

/-- `db.delete_range`: drop every record whose key the range covers. -/
def applyDeleteRange (db : Store) (r : KeyRange) : Store :=
  db.filter (fun kv => !(inRange r kv.1))

/-- `db.put`: insert or overwrite at a key, keeping the key order the
iterator exposes. -/
def storePut : Store → String → EmbeddedFile → Store
  | [], key, f => [(key, f)]
  | (k, v) :: rest, key, f =>
    if keyLtB key k then (key, f) :: (k, v) :: rest
    else if key = k then (key, f) :: rest
    else (k, v) :: storePut rest key f

/-- Apply one transaction. A put keys the record by
`db_key_for_path(file.path)` as in the source. -/
def applyOp (db : Store) : PersistOp → Store
  | .del r => applyDeleteRange db r
  | .put f => storePut db (dbKeyForPath f.path) f

/-- The persister run: fold the transactions in arrival order. -/
def persistOps (db : Store) (ops : List PersistOp) : Store :=
  ops.foldl applyOp db

/-- The deletion ranges an operation list carries, in order. -/
def opDel : PersistOp → Option KeyRange
  | .del r => some r
  | .put _ => none

/-- The files an operation list carries, in order. -/
def opPut : PersistOp → Option EmbeddedFile
  | .put f => some f
  | .del _ => none

/-- `ops` is one of the interleavings `select_biased!` can produce of a
deletion-range stream and an embedded-file stream. -/
def IsInterleaving (ops : List PersistOp) (ranges : List KeyRange)
    (files : List EmbeddedFile) : Prop :=
  ops.filterMap opDel = ranges ∧ ops.filterMap opPut = files

/-! ## Store accessors and the chunker's format dispatch -/

/-- `paths()`: every indexed path, in key order. -/
def pathsAccessor (db : Store) : List String :=
  db.map (fun kv => kv.2.path)

/-- `chunks_for_path`: the stored chunk list for a path, `none` when
absent (the source fails with "no such path"). -/
def chunksForPath (db : Store) (path : String) : Option (List EmbeddedChunk) :=
  (lookupFile db (dbKeyForPath path)).map EmbeddedFile.chunks

/-- `MARKITDOWN_EXTENSIONS`, verbatim from the source. -/
def MARKITDOWN_EXTENSIONS : List String :=
  ["docx", "pptx", "xlsx", "xls", "xlsm", "xlsb", "xla", "xlam",
   "odt", "ods", "odp",
   "pdf",
   "jpg", "jpeg", "png", "gif", "bmp", "tiff", "tif", "webp", "ico", "svg",
   "wav", "mp3", "m4a", "aac", "ogg", "flac",
   "html", "htm", "xml", "json",
   "csv", "tsv", "txt",
   "epub",
   "zip",
   "msg", "eml"]

/-- The text-loading dispatch of `chunk_files` for one entry, given the
outcomes of the two collaborators: `convert` is what
`convert_document_with_markitdown` would return for the file, `load`
what `fs.load` would return. A recognized extension goes through
conversion and is skipped (`none`) when conversion fails; any other
extension goes through direct loading and is skipped when that fails.
The boolean records which collaborator produced the text. -/
def chunkFileText (ext : String) (convert : Option String)
    (load : Option String) : Option (String × Bool) :=
  if MARKITDOWN_EXTENSIONS.contains ext then
    convert.map (fun markdown => (markdown, true))
  else
    load.map (fun text => (text, false))

end AutoTender

/-! Sanity checks (kernel-evaluability of the definitions). -/

example : AutoTender.dbKeyForPath "a/b" = "a" ++ String.mk [Char.ofNat 0] ++ "b" := by decide

example : AutoTender.keyLtB "a" "b" = true := by decide

example : AutoTender.SortedKeys [("a", ⟨"a", none, [], ""⟩), ("b", ⟨"b", none, [], ""⟩)] := by decide

namespace AutoTender

/-- A bare persisted record, for concrete instances. -/
def exFile (p : String) (m : Option MTime) : EmbeddedFile := ⟨p, m, [], ""⟩

/-- A bare live file entry, for concrete instances. -/
def exEntry (i : Nat) (p : String) (m : Option MTime) : Entry := ⟨i, p, m, true⟩

example :
    let db : Store := [("a", exFile "a" (some 1)), ("c", exFile "c" (some 2)),
      ("e", exFile "e" (some 3))]
    let live := [exEntry 1 "b" (some 10), exEntry 2 "c" (some 2), exEntry 3 "d" (some 11)]
    let out := scanEntries db live
    out.updates.map Entry.path = ["b", "d"] ∧
      (storeKeys db).filter (fun k => out.ranges.any (fun r => inRange r k)) = ["a", "e"] ∧
      out.ranges = [(Bound.included "a", Bound.included "a"),
        (Bound.included "e", Bound.unbounded)] := by
  decide

example :
    (scanEntries [("a", exFile "a" (some 1))] [exEntry 1 "b" (some 10)]).ranges = [] := by
  decide

example :
    (scanEntries [] [exEntry 1 "a" none]).updates = [] := by
  decide

example :
    scanUpdatedEntries (fun _ => none) [("x", 7, PathChange.removed)] =
      ⟨[], [(Bound.included "x", Bound.included "x")], []⟩ := by
  decide

end AutoTender

namespace AutoTender

/-! ## Order bridges

`keyLtB` and `keyLeB` are the computable faces of the `LinearOrder`
on `String`; everything below reasons through these two bridges. -/

theorem keyLtB_iff {a b : String} : keyLtB a b = true ↔ a < b := by
  simp [keyLtB]

theorem keyLeB_iff {a b : String} : keyLeB a b = true ↔ a ≤ b := by
  simp [keyLeB, keyLtB]

theorem keyLtB_eq_false_iff {a b : String} : keyLtB a b = false ↔ ¬a < b := by
  rw [← keyLtB_iff]
  simp

theorem keyLtB_self (a : String) : keyLtB a a = false :=
  keyLtB_eq_false_iff.mpr (lt_irrefl a)

theorem inRange_incl_incl {a b k : String} :
    inRange (Bound.included a, Bound.included b) k = true ↔ a ≤ k ∧ k ≤ b := by
  simp [inRange, keyLeB_iff]

theorem inRange_incl_unbounded {a k : String} :
    inRange (Bound.included a, Bound.unbounded) k = true ↔ a ≤ k := by
  simp [inRange, keyLeB_iff]

/-! ## Structure of the inner scan loop -/

/-- What the inner loop's `Ordering::Less` arm does to the open range,
iterated over a run of consumed keys. -/
def extendPending : Option KeyRange → Store → Option KeyRange
  | pending, [] => pending
  | pending, (dbPath, _) :: rest =>
    extendPending (some (pendExtend pending dbPath)) rest

theorem extendPending_some (a b : Bound String) {pre : Store} {last : String × EmbeddedFile}
    (h : pre.getLast? = some last) :
    extendPending (some (a, b)) pre = some (a, Bound.included last.1) := by
  induction pre generalizing a b with
  | nil => simp at h
  | cons hd tl ih =>
    cases tl with
    | nil =>
      simp at h
      subst h
      simp [extendPending, pendExtend]
    | cons h2 t2 =>
      rw [List.getLast?_cons_cons] at h
      rw [extendPending]
      exact ih _ _ h

theorem extendPending_none {pre : Store} {hd last : String × EmbeddedFile}
    (hh : pre.head? = some hd) (hl : pre.getLast? = some last) :
    extendPending none pre = some (Bound.included hd.1, Bound.included last.1) := by
  cases pre with
  | nil => simp at hh
  | cons h0 tl =>
    simp at hh
    subst hh
    cases tl with
    | nil =>
      simp at hl
      subst hl
      simp [extendPending, pendExtend]
    | cons h2 t2 =>
      rw [List.getLast?_cons_cons] at hl
      rw [extendPending]
      exact extendPending_some _ _ hl

/-- Members of a key-sorted nonempty list are bounded by its head. -/
theorem pairwise_head_le {l : Store} (hs : l.Pairwise (fun a b => a.1 < b.1))
    {hd kv : String × EmbeddedFile} (hh : l.head? = some hd) (hm : kv ∈ l) :
    hd.1 ≤ kv.1 := by
  cases l with
  | nil => simp at hh
  | cons h0 tl =>
    simp at hh
    subst hh
    rcases List.mem_cons.mp hm with h | h
    · subst h; exact le_refl _
    · exact le_of_lt ((List.pairwise_cons.mp hs).1 kv h)

/-- Members of a key-sorted list are bounded by its last element. -/
theorem pairwise_le_getLast {l : Store} (hs : l.Pairwise (fun a b => a.1 < b.1))
    {last kv : String × EmbeddedFile} (hl : l.getLast? = some last) (hm : kv ∈ l) :
    kv.1 ≤ last.1 := by
  induction l with
  | nil => simp at hl
  | cons h0 tl ih =>
    cases tl with
    | nil =>
      simp at hl hm
      subst hl hm
      exact le_refl _
    | cons h2 t2 =>
      rw [List.getLast?_cons_cons] at hl
      rcases List.mem_cons.mp hm with h | h
      · subst h
        have hlast : last ∈ h2 :: t2 := List.mem_of_getLast?_eq_some hl
        exact le_of_lt ((List.pairwise_cons.mp hs).1 last hlast)
      · exact ih (List.pairwise_cons.mp hs).2 hl h

/-- The inner loop, characterized: the db splits into a consumed prefix
of keys below the entry key and an untouched tail; either the tail
starts exactly at the entry key (the `Equal` arm: mtime captured,
pending flushed) or every tail key is above it (the `Greater` arm or an
exhausted iterator: nothing emitted, pending extended). -/
theorem scanConsume_cases (K : String) (db : Store) (p : Option KeyRange)
    (hs : db.Pairwise (fun a b => a.1 < b.1)) :
    ∃ pre post, db = pre ++ post ∧ (∀ kv ∈ pre, kv.1 < K) ∧
      ((∃ f post', post = (K, f) :: post' ∧ (∀ kv ∈ post', K < kv.1) ∧
          scanConsume K db p = ⟨f.mtime, post', none, (extendPending p pre).toList⟩) ∨
        ((∀ kv ∈ post, K < kv.1) ∧
          scanConsume K db p = ⟨none, post, extendPending p pre, []⟩)) := by
  induction db generalizing p with
  | nil =>
    exact ⟨[], [], rfl, by simp, Or.inr ⟨by simp, by simp [scanConsume, extendPending]⟩⟩
  | cons hd tl ih =>
    obtain ⟨k, f⟩ := hd
    have hs' := List.pairwise_cons.mp hs
    rcases lt_trichotomy k K with hlt | heq | hgt
    · -- `Ordering::Less`: consume the head into the pending range
      set p' : Option KeyRange := some (pendExtend p k) with hp'
      obtain ⟨pre, post, hsplit, hpre, hcase⟩ := ih p' hs'.2
      refine ⟨(k, f) :: pre, post, by rw [hsplit, List.cons_append], ?_, ?_⟩
      · intro kv hkv
        rcases List.mem_cons.mp hkv with h | h
        · subst h; exact hlt
        · exact hpre kv h
      · have hstep : scanConsume K ((k, f) :: tl) p = scanConsume K tl p' := by
          rw [scanConsume]
          rw [if_pos (keyLtB_iff.mpr hlt)]
        have hext : extendPending p ((k, f) :: pre) = extendPending p' pre := rfl
        rcases hcase with ⟨g, post', hpost, hpost', heqn⟩ | ⟨hpost, heqn⟩
        · exact Or.inl ⟨g, post', hpost, hpost', by rw [hstep, heqn, hext]⟩
        · exact Or.inr ⟨hpost, by rw [hstep, heqn, hext]⟩
    · -- `Ordering::Equal`: flush the pending range, capture the mtime
      subst heq
      refine ⟨[], (k, f) :: tl, rfl, by simp, Or.inl ⟨f, tl, rfl, ?_, ?_⟩⟩
      · intro kv hkv
        exact hs'.1 kv hkv
      · rw [scanConsume]
        rw [if_neg (by simp [keyLtB_self]), if_pos rfl]
        rfl
    · -- `Ordering::Greater`: leave the iterator untouched
      refine ⟨[], (k, f) :: tl, rfl, by simp, Or.inr ⟨?_, ?_⟩⟩
      · intro kv hkv
        rcases List.mem_cons.mp hkv with h | h
        · subst h; exact hgt
        · exact lt_trans hgt (hs'.1 kv h)
      · have h1 : ¬(keyLtB k K = true) := by
          simp [keyLtB_eq_false_iff.mpr (not_lt.mpr (le_of_lt hgt))]
        have h2 : ¬(k = K) := ne_of_gt hgt
        rw [scanConsume]
        rw [if_neg h1, if_neg h2]
        rfl

end AutoTender

namespace AutoTender

/-! ## Lookup along the split -/

theorem lookupFile_append_of_lt {pre post : Store} {K : String}
    (h : ∀ kv ∈ pre, kv.1 < K) :
    lookupFile (pre ++ post) K = lookupFile post K := by
  induction pre with
  | nil => rfl
  | cons hd tl ih =>
    have hne : K ≠ hd.1 := ne_of_gt (h hd (List.mem_cons_self hd tl))
    obtain ⟨k, v⟩ := hd
    rw [List.cons_append, lookupFile, if_neg hne]
    exact ih (fun kv hkv => h kv (List.mem_cons_of_mem _ hkv))

theorem lookupFile_eq_none_of_gt {post : Store} {K : String}
    (h : ∀ kv ∈ post, K < kv.1) :
    lookupFile post K = none := by
  induction post with
  | nil => rfl
  | cons hd tl ih =>
    have hne : K ≠ hd.1 := ne_of_lt (h hd (List.mem_cons_self hd tl))
    obtain ⟨k, v⟩ := hd
    rw [lookupFile, if_neg hne]
    exact ih (fun kv hkv => h kv (List.mem_cons_of_mem _ hkv))

theorem lookupFile_cons_self (K : String) (f : EmbeddedFile) (rest : Store) :
    lookupFile ((K, f) :: rest) K = some f := by
  rw [lookupFile, if_pos rfl]

/-! ## The updated-entries stream, characterized

On key-sorted inputs the full scan emits exactly the live entries whose
mtime differs from the stored one — the merge works out to a pointwise
lookup. -/

theorem scanGo_registered_eq (live : List Entry) (db : Store) (p : Option KeyRange) :
    (scanGo live db p).registered = (scanGo live db p).updates.map Entry.id := by
  induction live generalizing db p with
  | nil => cases db <;> simp [scanGo]
  | cons e rest ih =>
    simp only [scanGo]
    split
    · simp [ih]
    · simp [ih]

theorem scanGo_updates_eq (live : List Entry) (db : Store) (p : Option KeyRange)
    (hdb : db.Pairwise (fun a b => a.1 < b.1))
    (hlive : live.Pairwise (fun a b => dbKeyForPath a.path < dbKeyForPath b.path)) :
    (scanGo live db p).updates =
      live.filter (fun e => decide (e.mtime ≠ storedMtime db (dbKeyForPath e.path))) := by
  induction live generalizing db p with
  | nil => cases db <;> simp [scanGo]
  | cons e rest ih =>
    have hlive' := List.pairwise_cons.mp hlive
    obtain ⟨pre, post, hsplit, hpre, hcase⟩ :=
      scanConsume_cases (dbKeyForPath e.path) db p hdb
    rcases hcase with ⟨f, post', hpost, hpost', heqn⟩ | ⟨hpost, heqn⟩
    · -- equal key: the saved mtime is the stored one
      have hsaved : storedMtime db (dbKeyForPath e.path) = f.mtime := by
        rw [storedMtime, hsplit, hpost, lookupFile_append_of_lt hpre, lookupFile_cons_self]
        rfl
      have hdb' : post'.Pairwise (fun a b => a.1 < b.1) := by
        refine hdb.sublist ?_
        rw [hsplit, hpost]
        exact List.Sublist.trans (List.sublist_cons_self _ _) (List.sublist_append_right _ _)
      have hlookup' : ∀ e' ∈ rest,
          storedMtime post' (dbKeyForPath e'.path) = storedMtime db (dbKeyForPath e'.path) := by
        intro e' he'
        have hgt : dbKeyForPath e.path < dbKeyForPath e'.path := hlive'.1 e' he'
        rw [storedMtime, storedMtime, hsplit, hpost,
          lookupFile_append_of_lt (fun kv hkv => lt_trans (hpre kv hkv) hgt),
          lookupFile, if_neg (ne_of_gt hgt)]
      simp only [scanGo, heqn]
      rw [ih post' none hdb' hlive'.2]
      rw [List.filter_congr (fun e' he' => by rw [hlookup' e' he'])]
      rw [List.filter_cons]
      rw [hsaved]
      by_cases hm : e.mtime = f.mtime <;> simp [hm]
    · -- no equal key: nothing stored for this entry
      have hsaved : storedMtime db (dbKeyForPath e.path) = none := by
        rw [storedMtime, hsplit, lookupFile_append_of_lt hpre, lookupFile_eq_none_of_gt hpost]
        rfl
      have hdb' : post.Pairwise (fun a b => a.1 < b.1) := by
        refine hdb.sublist ?_
        rw [hsplit]
        exact List.sublist_append_right _ _
      have hlookup' : ∀ e' ∈ rest,
          storedMtime post (dbKeyForPath e'.path) = storedMtime db (dbKeyForPath e'.path) := by
        intro e' he'
        have hgt : dbKeyForPath e.path < dbKeyForPath e'.path := hlive'.1 e' he'
        rw [storedMtime, storedMtime, hsplit,
          lookupFile_append_of_lt (fun kv hkv => lt_trans (hpre kv hkv) hgt)]
      simp only [scanGo, heqn]
      rw [ih post (extendPending p pre) hdb' hlive'.2]
      rw [List.filter_congr (fun e' he' => by rw [hlookup' e' he'])]
      rw [List.filter_cons]
      rw [hsaved]
      by_cases hm : e.mtime = none <;> simp [hm]

end AutoTender

namespace AutoTender

/-! ## Structure of the emitted deletion ranges -/

/-- One step of the outer loop contributes its flushed ranges before
whatever the remaining entries contribute; the update condition does not
touch the range stream. -/
theorem scanGo_cons_ranges (e : Entry) (rest : List Entry) (db : Store)
    (p : Option KeyRange) :
    (scanGo (e :: rest) db p).ranges =
      (scanConsume (dbKeyForPath e.path) db p).emitted ++
        (scanGo rest (scanConsume (dbKeyForPath e.path) db p).dbRest
          (scanConsume (dbKeyForPath e.path) db p).pending).ranges := by
  simp only [scanGo]
  split <;> rfl

/-- The invariant of the open deletion range relative to the unconsumed
db tail and the unprocessed live entries: it is absent, or an inclusive
pair of keys `a ≤ b` with `b` strictly below everything still ahead. -/
def PendInv (p : Option KeyRange) (db : Store) (live : List Entry) : Prop :=
  p = none ∨ ∃ a b, p = some (Bound.included a, Bound.included b) ∧ a ≤ b ∧
    (∀ kv ∈ db, b < kv.1) ∧ (∀ e ∈ live, b < dbKeyForPath e.path)

/-- The lower bound of an extended pending range comes from the old
range or from a consumed key. -/
theorem extendPending_lo {p : Option KeyRange} {pre : Store} {r : KeyRange}
    (h : extendPending p pre = some r) :
    (∃ kv ∈ pre, r.1 = Bound.included kv.1) ∨ (∃ hi, p = some (r.1, hi)) := by
  cases pre with
  | nil =>
    rw [extendPending] at h
    right
    exact ⟨r.2, by rw [h]⟩
  | cons hd tl =>
    have hlast : (hd :: tl).getLast? = some ((hd :: tl).getLast (List.cons_ne_nil hd tl)) :=
      List.getLast?_eq_getLast _ _
    cases p with
    | none =>
      rw [extendPending_none (show (hd :: tl).head? = some hd from rfl) hlast] at h
      obtain rfl := Option.some_inj.mp h
      exact Or.inl ⟨hd, List.mem_cons_self hd tl, rfl⟩
    | some q =>
      obtain ⟨lo, hi⟩ := q
      rw [extendPending_some lo hi hlast] at h
      obtain rfl := Option.some_inj.mp h
      exact Or.inr ⟨hi, rfl⟩

/-- Extending a well-formed pending range over a sorted nonempty run of
consumed keys yields an inclusive range that covers exactly the old span
plus the run: same lower bound (or the run's head), upper bound the
run's last key. -/
theorem extendPending_spec {p : Option KeyRange} {pre : Store}
    (hs : pre.Pairwise (fun a b => a.1 < b.1)) (hne : pre ≠ [])
    (hshape : p = none ∨ ∃ a₀ b₀, p = some (Bound.included a₀, Bound.included b₀) ∧
      a₀ ≤ b₀ ∧ ∀ kv ∈ pre, b₀ < kv.1) :
    ∃ a b, extendPending p pre = some (Bound.included a, Bound.included b) ∧
      a ≤ b ∧ b ∈ storeKeys pre ∧
      (∀ kv ∈ pre, a ≤ kv.1 ∧ kv.1 ≤ b) ∧
      (∀ a₀ b₀, p = some (Bound.included a₀, Bound.included b₀) → a = a₀ ∧ b₀ ≤ b) := by
  have hlast : pre.getLast? = some (pre.getLast hne) := List.getLast?_eq_getLast _ _
  have hlast_mem : pre.getLast hne ∈ pre := List.getLast_mem hne
  have hmem_le : ∀ kv ∈ pre, kv.1 ≤ (pre.getLast hne).1 :=
    fun kv hkv => pairwise_le_getLast hs hlast hkv
  rcases hshape with rfl | ⟨a₀, b₀, rfl, hab, hb₀⟩
  · obtain ⟨hd, hhd⟩ : ∃ hd, pre.head? = some hd := by
      cases pre with
      | nil => exact absurd rfl hne
      | cons h0 t0 => exact ⟨h0, rfl⟩
    refine ⟨hd.1, (pre.getLast hne).1, extendPending_none hhd hlast, ?_, ?_, ?_, ?_⟩
    · exact pairwise_head_le hs hhd hlast_mem
    · exact List.mem_map.mpr ⟨pre.getLast hne, hlast_mem, rfl⟩
    · exact fun kv hkv => ⟨pairwise_head_le hs hhd hkv, hmem_le kv hkv⟩
    · intro a₀ b₀ h
      simp at h
  · refine ⟨a₀, (pre.getLast hne).1, extendPending_some _ _ hlast, ?_, ?_, ?_, ?_⟩
    · exact le_of_lt (lt_of_le_of_lt hab (hb₀ _ hlast_mem))
    · exact List.mem_map.mpr ⟨pre.getLast hne, hlast_mem, rfl⟩
    · exact fun kv hkv =>
        ⟨le_of_lt (lt_of_le_of_lt hab (hb₀ kv hkv)), hmem_le kv hkv⟩
    · intro a₁ b₁ h
      simp only [Option.some_inj, Prod.mk.injEq, Bound.included.injEq] at h
      obtain ⟨rfl, rfl⟩ := h
      exact ⟨rfl, le_of_lt (hb₀ _ hlast_mem)⟩

end AutoTender

namespace AutoTender

/-- An open pending range `[a, b]` is flushed — covered by an emitted
range — as soon as some later live entry's key is present in the
unconsumed db tail. -/
theorem scanGo_pending_flushed (live : List Entry) :
    ∀ (db : Store) (a b : String),
      db.Pairwise (fun x y => x.1 < y.1) →
      live.Pairwise (fun x y => dbKeyForPath x.path < dbKeyForPath y.path) →
      a ≤ b →
      (∀ kv ∈ db, b < kv.1) →
      (∀ e ∈ live, b < dbKeyForPath e.path) →
      (∃ e ∈ live, dbKeyForPath e.path ∈ storeKeys db) →
      ∃ r ∈ (scanGo live db (some (Bound.included a, Bound.included b))).ranges,
        ∀ k, a ≤ k → k ≤ b → inRange r k = true := by
  induction live with
  | nil =>
    rintro db a b _ _ _ _ _ ⟨e, he, -⟩
    exact absurd he (List.not_mem_nil e)
  | cons e rest ih =>
    intro db a b hdb hlive hab hdbB hliveB hmatch
    have hlive' := List.pairwise_cons.mp hlive
    obtain ⟨pre, post, hsplit, hpre, hcase⟩ :=
      scanConsume_cases (dbKeyForPath e.path) db
        (some (Bound.included a, Bound.included b)) hdb
    have hpre_sorted : pre.Pairwise (fun x y => x.1 < y.1) :=
      hdb.sublist (by rw [hsplit]; exact List.sublist_append_left _ _)
    have hshape : (some (Bound.included a, Bound.included b) : Option KeyRange) = none ∨
        ∃ a₀ b₀, (some (Bound.included a, Bound.included b) : Option KeyRange) =
          some (Bound.included a₀, Bound.included b₀) ∧ a₀ ≤ b₀ ∧ ∀ kv ∈ pre, b₀ < kv.1 :=
      Or.inr ⟨a, b, rfl, hab,
        fun kv hkv => hdbB kv (by rw [hsplit]; exact List.mem_append_left _ hkv)⟩
    rcases hcase with ⟨f, post', hpost, hpost', heqn⟩ | ⟨hpost, heqn⟩
    · -- the entry's key is stored: the pending range is flushed right here
      rw [scanGo_cons_ranges, heqn]
      dsimp only
      by_cases hpre_nil : pre = []
      · subst hpre_nil
        refine ⟨(Bound.included a, Bound.included b),
          List.mem_append_left _ (by simp [extendPending]), ?_⟩
        intro k hk1 hk2
        exact inRange_incl_incl.mpr ⟨hk1, hk2⟩
      · obtain ⟨a', b', heq', hab', hbmem', hcov', horig'⟩ :=
          extendPending_spec hpre_sorted hpre_nil hshape
        obtain ⟨rfl, hbb⟩ := horig' a b rfl
        refine ⟨(Bound.included a', Bound.included b'),
          List.mem_append_left _ (by simp [heq']), ?_⟩
        intro k hk1 hk2
        exact inRange_incl_incl.mpr ⟨hk1, le_trans hk2 hbb⟩
    · -- no equal key here: the still-open range survives into the tail
      rw [scanGo_cons_ranges, heqn]
      dsimp only
      obtain ⟨e', he', hkey'⟩ := hmatch
      have he'rest : e' ∈ rest := by
        rcases List.mem_cons.mp he' with rfl | h
        · exfalso
          obtain ⟨kv, hkv, hkveq⟩ := List.mem_map.mp hkey'
          rw [hsplit] at hkv
          rcases List.mem_append.mp hkv with h | h
          · exact absurd (hkveq ▸ hpre kv h) (lt_irrefl _)
          · exact absurd (hkveq ▸ hpost kv h) (lt_irrefl _)
        · exact h
      have hK_lt : dbKeyForPath e.path < dbKeyForPath e'.path := hlive'.1 e' he'rest
      have hkey'post : dbKeyForPath e'.path ∈ storeKeys post := by
        obtain ⟨kv, hkv, hkveq⟩ := List.mem_map.mp hkey'
        rw [hsplit] at hkv
        rcases List.mem_append.mp hkv with h | h
        · exact absurd (hkveq ▸ lt_trans (hpre kv h) hK_lt) (lt_irrefl _)
        · exact List.mem_map.mpr ⟨kv, h, hkveq⟩
      have hpost_sorted : post.Pairwise (fun x y => x.1 < y.1) :=
        hdb.sublist (by rw [hsplit]; exact List.sublist_append_right _ _)
      by_cases hpre_nil : pre = []
      · subst hpre_nil
        obtain ⟨r, hr, hcov⟩ := ih post a b hpost_sorted hlive'.2 hab
          (fun kv hkv => hdbB kv (by rw [hsplit]; exact hkv))
          (fun e'' he'' => hliveB e'' (List.mem_cons_of_mem _ he''))
          ⟨e', he'rest, hkey'post⟩
        rw [extendPending]
        exact ⟨r, List.mem_append_right _ hr, hcov⟩
      · obtain ⟨a', b', heq', hab', hbmem', hcov', horig'⟩ :=
          extendPending_spec hpre_sorted hpre_nil hshape
        obtain ⟨rfl, hbb⟩ := horig' a b rfl
        have hb'K : b' < dbKeyForPath e.path := by
          obtain ⟨kv, hkv, hkveq⟩ := List.mem_map.mp hbmem'
          exact hkveq ▸ hpre kv hkv
        obtain ⟨r, hr, hcov⟩ := ih post a' b' hpost_sorted hlive'.2 hab'
          (fun kv hkv => lt_trans hb'K (hpost kv hkv))
          (fun e'' he'' => lt_trans hb'K (hlive'.1 e'' he''))
          ⟨e', he'rest, hkey'post⟩
        rw [heq']
        exact ⟨r, List.mem_append_right _ hr,
          fun k hk1 hk2 => hcov k hk1 (le_trans hk2 hbb)⟩

/-- Every emitted range's lower bound is an inclusive stored key or the
initial pending range's own lower bound. -/
theorem scanGo_ranges_lower (live : List Entry) :
    ∀ (db : Store) (p : Option KeyRange),
      db.Pairwise (fun x y => x.1 < y.1) →
      ∀ r ∈ (scanGo live db p).ranges,
        (∃ kv ∈ db, r.1 = Bound.included kv.1) ∨ ∃ lo hi, p = some (lo, hi) ∧ r.1 = lo := by
  induction live with
  | nil =>
    intro db p hdb r hr
    cases db with
    | nil => simp [scanGo] at hr
    | cons d tl =>
      obtain ⟨dk, df⟩ := d
      simp only [scanGo, List.mem_singleton] at hr
      exact Or.inl ⟨(dk, df), List.mem_cons_self _ _, by rw [hr]⟩
  | cons e rest ih =>
    intro db p hdb r hr
    obtain ⟨pre, post, hsplit, hpre, hcase⟩ :=
      scanConsume_cases (dbKeyForPath e.path) db p hdb
    have hmem_pre : ∀ kv ∈ pre, kv ∈ db := by
      intro kv hkv
      rw [hsplit]
      exact List.mem_append_left _ hkv
    rcases hcase with ⟨f, post', hpost, hpost', heqn⟩ | ⟨hpost, heqn⟩
    · have hmem_post' : ∀ kv ∈ post', kv ∈ db := by
        intro kv hkv
        rw [hsplit, hpost]
        exact List.mem_append_right _ (List.mem_cons_of_mem _ hkv)
      have hpost'_sorted : post'.Pairwise (fun x y => x.1 < y.1) :=
        hdb.sublist (by
          rw [hsplit, hpost]
          exact List.Sublist.trans (List.sublist_cons_self _ _) (List.sublist_append_right _ _))
      rw [scanGo_cons_ranges, heqn] at hr
      dsimp only at hr
      rcases List.mem_append.mp hr with hr | hr
      · cases hE : extendPending p pre with
        | none => rw [hE] at hr; simp at hr
        | some r' =>
          rw [hE] at hr
          simp only [Option.toList, List.mem_singleton] at hr
          subst hr
          rcases extendPending_lo hE with ⟨kv, hkv, hlo⟩ | ⟨hi, hp⟩
          · exact Or.inl ⟨kv, hmem_pre kv hkv, hlo⟩
          · exact Or.inr ⟨r.1, hi, hp, rfl⟩
      · rcases ih post' none hpost'_sorted r hr with ⟨kv, hkv, hlo⟩ | ⟨lo, hi, hp, -⟩
        · exact Or.inl ⟨kv, hmem_post' kv hkv, hlo⟩
        · exact absurd hp (by simp)
    · have hmem_post : ∀ kv ∈ post, kv ∈ db := by
        intro kv hkv
        rw [hsplit]
        exact List.mem_append_right _ hkv
      have hpost_sorted : post.Pairwise (fun x y => x.1 < y.1) :=
        hdb.sublist (by rw [hsplit]; exact List.sublist_append_right _ _)
      rw [scanGo_cons_ranges, heqn] at hr
      dsimp only at hr
      rcases List.mem_append.mp hr with hr | hr
      · simp at hr
      · rcases ih post (extendPending p pre) hpost_sorted r hr with
          ⟨kv, hkv, hlo⟩ | ⟨lo, hi, hp, hlo⟩
        · exact Or.inl ⟨kv, hmem_post kv hkv, hlo⟩
        · rcases extendPending_lo hp with ⟨kv, hkv, hlo'⟩ | ⟨hi₀, hp₀⟩
          · exact Or.inl ⟨kv, hmem_pre kv hkv, hlo ▸ hlo'⟩
          · exact Or.inr ⟨lo, hi₀, hp₀, hlo⟩

end AutoTender

namespace AutoTender

theorem inRange_false_of_lt_lo {x k : String} (r2 : Bound String) (h : k < x) :
    inRange (Bound.included x, r2) k = false := by
  have hx : keyLeB x k = false := by
    simp [keyLeB, keyLtB_iff.mpr h]
  simp [inRange, hx]

theorem inRange_false_of_hi_lt {a b k : String} (h : b < k) :
    inRange (Bound.included a, Bound.included b) k = false := by
  have hb : keyLeB k b = false := by
    simp [keyLeB, keyLtB_iff.mpr h]
  simp [inRange, hb]

theorem PendInv_of_subsets {p : Option KeyRange} {db db' : Store}
    {live live' : List Entry}
    (hdb : ∀ kv ∈ db', kv ∈ db) (hlive : ∀ e ∈ live', e ∈ live) :
    PendInv p db live → PendInv p db' live' := by
  rintro (rfl | ⟨a, b, hp, hab, hdbB, hliveB⟩)
  · exact Or.inl rfl
  · exact Or.inr ⟨a, b, hp, hab, fun kv hkv => hdbB kv (hdb kv hkv),
      fun e he => hliveB e (hlive e he)⟩

/-- Consuming a run of keys below `K` preserves the pending-range
invariant relative to the unconsumed tail and the remaining entries,
all of whose keys are above `K`. -/
theorem PendInv_step {p : Option KeyRange} {db pre post : Store} {rest : List Entry}
    {K : String}
    (hsplit : db = pre ++ post)
    (hpre_sorted : pre.Pairwise (fun x y => x.1 < y.1))
    (hpre : ∀ kv ∈ pre, kv.1 < K)
    (hpost : ∀ kv ∈ post, K < kv.1)
    (hrest : ∀ e ∈ rest, K < dbKeyForPath e.path)
    (hpinv : PendInv p db rest) :
    PendInv (extendPending p pre) post rest := by
  by_cases hpre_nil : pre = []
  · subst hpre_nil
    rw [extendPending]
    refine PendInv_of_subsets ?_ (fun e he => he) hpinv
    intro kv hkv
    rw [hsplit]
    exact hkv
  · have hshape : p = none ∨ ∃ a₀ b₀, p = some (Bound.included a₀, Bound.included b₀) ∧
        a₀ ≤ b₀ ∧ ∀ kv ∈ pre, b₀ < kv.1 := by
      rcases hpinv with rfl | ⟨a, b, hp, hab, hdbB, hliveB⟩
      · exact Or.inl rfl
      · exact Or.inr ⟨a, b, hp, hab,
          fun kv hkv => hdbB kv (by rw [hsplit]; exact List.mem_append_left _ hkv)⟩
    obtain ⟨a', b', heq', hab', hbmem', hcov', horig'⟩ :=
      extendPending_spec hpre_sorted hpre_nil hshape
    have hb'K : b' < K := by
      obtain ⟨kv, hkv, hkveq⟩ := List.mem_map.mp hbmem'
      exact hkveq ▸ hpre kv hkv
    exact Or.inr ⟨a', b', heq', hab',
      fun kv hkv => lt_trans hb'K (hpost kv hkv),
      fun e he => lt_trans hb'K (hrest e he)⟩

end AutoTender

namespace AutoTender

/-- Soundness of the deletion ranges: no emitted range covers the key
of a stored record whose path is live. -/
theorem scanGo_no_live_covered (live : List Entry) :
    ∀ (db : Store) (p : Option KeyRange),
      db.Pairwise (fun x y => x.1 < y.1) →
      live.Pairwise (fun x y => dbKeyForPath x.path < dbKeyForPath y.path) →
      PendInv p db live →
      ∀ k ∈ storeKeys db, (∃ e ∈ live, dbKeyForPath e.path = k) →
        ∀ r ∈ (scanGo live db p).ranges, inRange r k = false := by
  induction live with
  | nil =>
    rintro db p _ _ _ k _ ⟨e, he, -⟩ r hr
    exact absurd he (List.not_mem_nil e)
  | cons e rest ih =>
    intro db p hdb hlive hpinv k hk hmatch r hr
    have hlive' := List.pairwise_cons.mp hlive
    obtain ⟨e', he', hkey'⟩ := hmatch
    have hKk : dbKeyForPath e.path ≤ k := by
      rcases List.mem_cons.mp he' with rfl | h
      · exact le_of_eq hkey'
      · exact le_of_lt (hkey' ▸ hlive'.1 e' h)
    obtain ⟨pre, post, hsplit, hpre, hcase⟩ :=
      scanConsume_cases (dbKeyForPath e.path) db p hdb
    have hpre_sorted : pre.Pairwise (fun x y => x.1 < y.1) :=
      hdb.sublist (by rw [hsplit]; exact List.sublist_append_left _ _)
    rcases hcase with ⟨f, post', hpost, hpost', heqn⟩ | ⟨hpost, heqn⟩
    · -- the entry's key is stored; flushed range sits strictly below it
      have hpost'_sorted : post'.Pairwise (fun x y => x.1 < y.1) :=
        hdb.sublist (by
          rw [hsplit, hpost]
          exact List.Sublist.trans (List.sublist_cons_self _ _) (List.sublist_append_right _ _))
      rw [scanGo_cons_ranges, heqn] at hr
      dsimp only at hr
      rcases List.mem_append.mp hr with hr | hr
      · cases hE : extendPending p pre with
        | none => rw [hE] at hr; simp at hr
        | some r' =>
          rw [hE] at hr
          simp only [Option.toList, List.mem_singleton] at hr
          subst hr
          by_cases hpre_nil : pre = []
          · subst hpre_nil
            rw [extendPending] at hE
            rcases hpinv with rfl | ⟨a, b, hp, hab, hdbB, hliveB⟩
            · simp at hE
            · rw [hp] at hE
              obtain rfl := Option.some_inj.mp hE
              obtain ⟨kv, hkv, hkveq⟩ := List.mem_map.mp hk
              exact inRange_false_of_hi_lt (hkveq ▸ hdbB kv hkv)
          · have hshape : p = none ∨ ∃ a₀ b₀,
                p = some (Bound.included a₀, Bound.included b₀) ∧
                  a₀ ≤ b₀ ∧ ∀ kv ∈ pre, b₀ < kv.1 := by
              rcases hpinv with rfl | ⟨a, b, hp, hab, hdbB, hliveB⟩
              · exact Or.inl rfl
              · exact Or.inr ⟨a, b, hp, hab,
                  fun kv hkv => hdbB kv (by rw [hsplit]; exact List.mem_append_left _ hkv)⟩
            obtain ⟨a', b', heq', hab', hbmem', hcov', horig'⟩ :=
              extendPending_spec hpre_sorted hpre_nil hshape
            rw [heq'] at hE
            obtain rfl := Option.some_inj.mp hE
            have hb'K : b' < dbKeyForPath e.path := by
              obtain ⟨kv, hkv, hkveq⟩ := List.mem_map.mp hbmem'
              exact hkveq ▸ hpre kv hkv
            exact inRange_false_of_hi_lt (lt_of_lt_of_le hb'K hKk)
      · -- ranges from the tail: all lower bounds sit above this key or
        -- the key is still stored in the tail
        rcases eq_or_lt_of_le hKk with heqk | hltk
        · rcases scanGo_ranges_lower rest post' none hpost'_sorted r hr with
            ⟨kv, hkv, hlo⟩ | ⟨lo, hi, hp, -⟩
          · obtain ⟨r1, r2⟩ := r
            simp only at hlo
            subst hlo
            exact inRange_false_of_lt_lo r2 (heqk ▸ hpost' kv hkv)
          · exact absurd hp (by simp)
        · have hk' : k ∈ storeKeys post' := by
            obtain ⟨kv, hkv, hkveq⟩ := List.mem_map.mp hk
            rw [hsplit, hpost] at hkv
            rcases List.mem_append.mp hkv with h | h
            · exact absurd (hkveq ▸ lt_trans (hpre kv h) hltk) (lt_irrefl _)
            · rcases List.mem_cons.mp h with rfl | h
              · exact absurd (hkveq ▸ hltk) (lt_irrefl _)
              · exact List.mem_map.mpr ⟨kv, h, hkveq⟩
          have he'rest : e' ∈ rest := by
            rcases List.mem_cons.mp he' with rfl | h
            · exact absurd hkey' (ne_of_lt hltk)
            · exact h
          exact ih post' none hpost'_sorted hlive'.2 (Or.inl rfl) k hk'
            ⟨e', he'rest, hkey'⟩ r hr
    · -- the entry's key is not stored; recurse with the extended range
      have hpost_sorted : post.Pairwise (fun x y => x.1 < y.1) :=
        hdb.sublist (by rw [hsplit]; exact List.sublist_append_right _ _)
      have hKnotin : dbKeyForPath e.path ∉ storeKeys db := by
        intro hKin
        obtain ⟨kv, hkv, hkveq⟩ := List.mem_map.mp hKin
        rw [hsplit] at hkv
        rcases List.mem_append.mp hkv with h | h
        · exact absurd (hkveq ▸ hpre kv h) (lt_irrefl _)
        · exact absurd (hkveq ▸ hpost kv h) (lt_irrefl _)
      have hltk : dbKeyForPath e.path < k := by
        rcases eq_or_lt_of_le hKk with heqk | hltk
        · exact absurd (heqk ▸ hk) hKnotin
        · exact hltk
      have he'rest : e' ∈ rest := by
        rcases List.mem_cons.mp he' with rfl | h
        · exact absurd (hkey' ▸ hk) hKnotin
        · exact h
      have hk' : k ∈ storeKeys post := by
        obtain ⟨kv, hkv, hkveq⟩ := List.mem_map.mp hk
        rw [hsplit] at hkv
        rcases List.mem_append.mp hkv with h | h
        · exact absurd (hkveq ▸ lt_trans (hpre kv h) hltk) (lt_irrefl _)
        · exact List.mem_map.mpr ⟨kv, h, hkveq⟩
      rw [scanGo_cons_ranges, heqn] at hr
      dsimp only at hr
      rcases List.mem_append.mp hr with hr | hr
      · simp at hr
      · have hpinv' : PendInv (extendPending p pre) post rest :=
          PendInv_step hsplit hpre_sorted hpre hpost (hlive'.1)
            (PendInv_of_subsets (fun kv hkv => hkv) (fun x hx => List.mem_cons_of_mem _ hx) hpinv)
        exact ih post (extendPending p pre) hpost_sorted hlive'.2 hpinv' k hk'
          ⟨e', he'rest, hkey'⟩ r hr

end AutoTender

namespace AutoTender

/-- Completeness of the deletion ranges: a stored key belonging to no
live file is covered by some emitted range whenever it either sorts
after every live file's key, or sorts before some live file whose key
is itself stored (such a later match flushes the open range holding the
key). -/
theorem scanGo_covers (live : List Entry) :
    ∀ (db : Store) (p : Option KeyRange),
      db.Pairwise (fun x y => x.1 < y.1) →
      live.Pairwise (fun x y => dbKeyForPath x.path < dbKeyForPath y.path) →
      PendInv p db live →
      ∀ k ∈ storeKeys db,
        (∀ e ∈ live, dbKeyForPath e.path ≠ k) →
        ((∃ e ∈ live, dbKeyForPath e.path ∈ storeKeys db ∧ k < dbKeyForPath e.path) ∨
          (∀ e ∈ live, dbKeyForPath e.path < k)) →
        ∃ r ∈ (scanGo live db p).ranges, inRange r k = true := by
  induction live with
  | nil =>
    intro db p hdb _ _ k hk _ _
    cases db with
    | nil => simp [storeKeys] at hk
    | cons d tl =>
      obtain ⟨dk, df⟩ := d
      refine ⟨(Bound.included dk, Bound.unbounded), by simp [scanGo], ?_⟩
      rw [inRange_incl_unbounded]
      obtain ⟨kv, hkv, hkveq⟩ := List.mem_map.mp hk
      exact hkveq ▸ pairwise_head_le hdb rfl hkv
  | cons e rest ih =>
    intro db p hdb hlive hpinv k hk hstale hD
    have hlive' := List.pairwise_cons.mp hlive
    have hKne : dbKeyForPath e.path ≠ k := hstale e (List.mem_cons_self _ _)
    obtain ⟨pre, post, hsplit, hpre, hcase⟩ :=
      scanConsume_cases (dbKeyForPath e.path) db p hdb
    have hpre_sorted : pre.Pairwise (fun x y => x.1 < y.1) :=
      hdb.sublist (by rw [hsplit]; exact List.sublist_append_left _ _)
    have hshape : p = none ∨ ∃ a₀ b₀,
        p = some (Bound.included a₀, Bound.included b₀) ∧
          a₀ ≤ b₀ ∧ ∀ kv ∈ pre, b₀ < kv.1 := by
      rcases hpinv with rfl | ⟨a, b, hp, hab, hdbB, hliveB⟩
      · exact Or.inl rfl
      · exact Or.inr ⟨a, b, hp, hab,
          fun kv hkv => hdbB kv (by rw [hsplit]; exact List.mem_append_left _ hkv)⟩
    rcases hcase with ⟨f, post', hpost, hpost', heqn⟩ | ⟨hpost, heqn⟩
    · -- the entry's key is stored: the pending range is flushed here
      have hpost'_sorted : post'.Pairwise (fun x y => x.1 < y.1) :=
        hdb.sublist (by
          rw [hsplit, hpost]
          exact List.Sublist.trans (List.sublist_cons_self _ _) (List.sublist_append_right _ _))
      rw [scanGo_cons_ranges, heqn]
      dsimp only
      rcases lt_trichotomy k (dbKeyForPath e.path) with hkK | hkK | hkK
      · -- the key sits in the consumed run: it is inside the flushed range
        have hkpre : ∃ kv ∈ pre, kv.1 = k := by
          obtain ⟨kv, hkv, hkveq⟩ := List.mem_map.mp hk
          rw [hsplit, hpost] at hkv
          rcases List.mem_append.mp hkv with h | h
          · exact ⟨kv, h, hkveq⟩
          · rcases List.mem_cons.mp h with rfl | h
            · exact absurd hkveq hKne
            · exact absurd (hkveq ▸ lt_trans hkK (hpost' kv h)) (lt_irrefl _)
        obtain ⟨kv₀, hkv₀, hkv₀eq⟩ := hkpre
        have hpre_nil : pre ≠ [] := by
          rintro rfl
          exact absurd hkv₀ (List.not_mem_nil _)
        obtain ⟨a', b', heq', hab', hbmem', hcov', horig'⟩ :=
          extendPending_spec hpre_sorted hpre_nil hshape
        refine ⟨(Bound.included a', Bound.included b'),
          List.mem_append_left _ (by simp [heq']), ?_⟩
        have hc := hcov' kv₀ hkv₀
        exact inRange_incl_incl.mpr ⟨hkv₀eq ▸ hc.1, hkv₀eq ▸ hc.2⟩
      · exact absurd hkK.symm hKne
      · -- the key sits in the tail: recurse with a closed pending range
        have hk' : k ∈ storeKeys post' := by
          obtain ⟨kv, hkv, hkveq⟩ := List.mem_map.mp hk
          rw [hsplit, hpost] at hkv
          rcases List.mem_append.mp hkv with h | h
          · exact absurd (hkveq ▸ lt_trans (hpre kv h) hkK) (lt_irrefl _)
          · rcases List.mem_cons.mp h with rfl | h
            · exact absurd hkveq hKne
            · exact List.mem_map.mpr ⟨kv, h, hkveq⟩
        have hD' : (∃ e' ∈ rest, dbKeyForPath e'.path ∈ storeKeys post' ∧
              k < dbKeyForPath e'.path) ∨
            (∀ e' ∈ rest, dbKeyForPath e'.path < k) := by
          rcases hD with ⟨e', he', hkey'db, hklt⟩ | hall
          · left
            have he'rest : e' ∈ rest := by
              rcases List.mem_cons.mp he' with rfl | h
              · exact absurd hklt (not_lt.mpr (le_of_lt hkK))
              · exact h
            have hKlt' : dbKeyForPath e.path < dbKeyForPath e'.path := hlive'.1 e' he'rest
            refine ⟨e', he'rest, ?_, hklt⟩
            obtain ⟨kv, hkv, hkveq⟩ := List.mem_map.mp hkey'db
            rw [hsplit, hpost] at hkv
            rcases List.mem_append.mp hkv with h | h
            · exact absurd (hkveq ▸ lt_trans (hpre kv h) hKlt') (lt_irrefl _)
            · rcases List.mem_cons.mp h with rfl | h
              · exact absurd hkveq (ne_of_gt hKlt').symm
              · exact List.mem_map.mpr ⟨kv, h, hkveq⟩
          · exact Or.inr fun e' he' => hall e' (List.mem_cons_of_mem _ he')
        obtain ⟨r, hr, hcov⟩ := ih post' none hpost'_sorted hlive'.2 (Or.inl rfl) k hk'
          (fun e' he' => hstale e' (List.mem_cons_of_mem _ he')) hD'
        exact ⟨r, List.mem_append_right _ hr, hcov⟩
    · -- the entry's key is not stored
      have hpost_sorted : post.Pairwise (fun x y => x.1 < y.1) :=
        hdb.sublist (by rw [hsplit]; exact List.sublist_append_right _ _)
      have hKnotin : dbKeyForPath e.path ∉ storeKeys db := by
        intro hKin
        obtain ⟨kv, hkv, hkveq⟩ := List.mem_map.mp hKin
        rw [hsplit] at hkv
        rcases List.mem_append.mp hkv with h | h
        · exact absurd (hkveq ▸ hpre kv h) (lt_irrefl _)
        · exact absurd (hkveq ▸ hpost kv h) (lt_irrefl _)
      rw [scanGo_cons_ranges, heqn]
      dsimp only
      rcases lt_trichotomy k (dbKeyForPath e.path) with hkK | hkK | hkK
      · -- the key was just consumed into the still-open pending range;
        -- a later matching live file flushes it
        rcases hD with ⟨e', he', hkey'db, hklt⟩ | hall
        · have he'rest : e' ∈ rest := by
            rcases List.mem_cons.mp he' with rfl | h
            · exact absurd hkey'db hKnotin
            · exact h
          have hKlt' : dbKeyForPath e.path < dbKeyForPath e'.path := hlive'.1 e' he'rest
          have hkey'post : dbKeyForPath e'.path ∈ storeKeys post := by
            obtain ⟨kv, hkv, hkveq⟩ := List.mem_map.mp hkey'db
            rw [hsplit] at hkv
            rcases List.mem_append.mp hkv with h | h
            · exact absurd (hkveq ▸ lt_trans (hpre kv h) hKlt') (lt_irrefl _)
            · exact List.mem_map.mpr ⟨kv, h, hkveq⟩
          have hkpre : ∃ kv ∈ pre, kv.1 = k := by
            obtain ⟨kv, hkv, hkveq⟩ := List.mem_map.mp hk
            rw [hsplit] at hkv
            rcases List.mem_append.mp hkv with h | h
            · exact ⟨kv, h, hkveq⟩
            · exact absurd (hkveq ▸ lt_trans hkK (hpost kv h)) (lt_irrefl _)
          obtain ⟨kv₀, hkv₀, hkv₀eq⟩ := hkpre
          have hpre_nil : pre ≠ [] := by
            rintro rfl
            exact absurd hkv₀ (List.not_mem_nil _)
          obtain ⟨a', b', heq', hab', hbmem', hcov', horig'⟩ :=
            extendPending_spec hpre_sorted hpre_nil hshape
          have hb'K : b' < dbKeyForPath e.path := by
            obtain ⟨kv, hkv, hkveq⟩ := List.mem_map.mp hbmem'
            exact hkveq ▸ hpre kv hkv
          obtain ⟨r, hr, hcov⟩ := scanGo_pending_flushed rest post a' b'
            hpost_sorted hlive'.2 hab'
            (fun kv hkv => lt_trans hb'K (hpost kv hkv))
            (fun e'' he'' => lt_trans hb'K (hlive'.1 e'' he''))
            ⟨e', he'rest, hkey'post⟩
          rw [heq']
          have hc := hcov' kv₀ hkv₀
          exact ⟨r, List.mem_append_right _ hr,
            hcov k (hkv₀eq ▸ hc.1) (hkv₀eq ▸ hc.2)⟩
        · exact absurd (hall e (List.mem_cons_self _ _)) (not_lt.mpr (le_of_lt hkK))
      · exact absurd hkK.symm hKne
      · -- the key sits in the tail
        have hk' : k ∈ storeKeys post := by
          obtain ⟨kv, hkv, hkveq⟩ := List.mem_map.mp hk
          rw [hsplit] at hkv
          rcases List.mem_append.mp hkv with h | h
          · exact absurd (hkveq ▸ lt_trans (hpre kv h) hkK) (lt_irrefl _)
          · exact List.mem_map.mpr ⟨kv, h, hkveq⟩
        have hpinv' : PendInv (extendPending p pre) post rest :=
          PendInv_step hsplit hpre_sorted hpre hpost (hlive'.1)
            (PendInv_of_subsets (fun kv hkv => hkv)
              (fun x hx => List.mem_cons_of_mem _ hx) hpinv)
        have hD' : (∃ e' ∈ rest, dbKeyForPath e'.path ∈ storeKeys post ∧
              k < dbKeyForPath e'.path) ∨
            (∀ e' ∈ rest, dbKeyForPath e'.path < k) := by
          rcases hD with ⟨e', he', hkey'db, hklt⟩ | hall
          · left
            have he'rest : e' ∈ rest := by
              rcases List.mem_cons.mp he' with rfl | h
              · exact absurd hkey'db hKnotin
              · exact h
            have hKlt' : dbKeyForPath e.path < dbKeyForPath e'.path := hlive'.1 e' he'rest
            refine ⟨e', he'rest, ?_, hklt⟩
            obtain ⟨kv, hkv, hkveq⟩ := List.mem_map.mp hkey'db
            rw [hsplit] at hkv
            rcases List.mem_append.mp hkv with h | h
            · exact absurd (hkveq ▸ lt_trans (hpre kv h) hKlt') (lt_irrefl _)
            · exact List.mem_map.mpr ⟨kv, h, hkveq⟩
          · exact Or.inr fun e' he' => hall e' (List.mem_cons_of_mem _ he')
        obtain ⟨r, hr, hcov⟩ := ih post (extendPending p pre) hpost_sorted hlive'.2
          hpinv' k hk' (fun e' he' => hstale e' (List.mem_cons_of_mem _ he')) hD'
        exact ⟨r, List.mem_append_right _ hr, hcov⟩

end AutoTender

namespace AutoTender

/-! ## Persister lemmas -/

theorem lookupFile_eq_none_iff {db : Store} {k : String} :
    lookupFile db k = none ↔ k ∉ storeKeys db := by
  induction db with
  | nil => simp [lookupFile, storeKeys]
  | cons hd tl ih =>
    obtain ⟨k0, v0⟩ := hd
    by_cases hk : k = k0
    · subst hk
      simp [lookupFile, storeKeys]
    · rw [lookupFile, if_neg hk, ih]
      simp [storeKeys, hk]

theorem lookupFile_storePut_self (db : Store) (key : String) (f : EmbeddedFile) :
    lookupFile (storePut db key f) key = some f := by
  induction db with
  | nil => simp [storePut, lookupFile]
  | cons hd tl ih =>
    obtain ⟨k0, v0⟩ := hd
    rw [storePut]
    by_cases h1 : keyLtB key k0
    · rw [if_pos h1, lookupFile, if_pos rfl]
    · rw [if_neg h1]
      by_cases h2 : key = k0
      · rw [if_pos h2, lookupFile, if_pos rfl]
      · rw [if_neg h2, lookupFile, if_neg h2]
        exact ih

theorem lookupFile_storePut_other (db : Store) (key : String) (f : EmbeddedFile)
    {k : String} (hk : k ≠ key) :
    lookupFile (storePut db key f) k = lookupFile db k := by
  induction db with
  | nil => simp [storePut, lookupFile, hk]
  | cons hd tl ih =>
    obtain ⟨k0, v0⟩ := hd
    rw [storePut]
    by_cases h1 : keyLtB key k0
    · rw [if_pos h1]
      simp only [lookupFile]
      simp [hk]
    · rw [if_neg h1]
      by_cases h2 : key = k0
      · subst h2
        simp only [lookupFile]
        simp [hk]
      · rw [if_neg h2]
        simp only [lookupFile]
        by_cases h3 : k = k0
        · simp [h3]
        · simp [h3, ih]

theorem storeKeys_storePut_mem {db : Store} {key k : String} {f : EmbeddedFile} :
    k ∈ storeKeys (storePut db key f) → k = key ∨ k ∈ storeKeys db := by
  induction db with
  | nil => simp [storePut, storeKeys]
  | cons hd tl ih =>
    obtain ⟨k0, v0⟩ := hd
    rw [storePut]
    by_cases h1 : keyLtB key k0
    · rw [if_pos h1]
      intro h
      rcases List.mem_map.mp h with ⟨kv, hkv, hkveq⟩
      subst hkveq
      rcases List.mem_cons.mp hkv with rfl | hkv
      · exact Or.inl rfl
      · exact Or.inr (List.mem_map.mpr ⟨kv, hkv, rfl⟩)
    · rw [if_neg h1]
      by_cases h2 : key = k0
      · rw [if_pos h2]
        intro h
        rcases List.mem_map.mp h with ⟨kv, hkv, hkveq⟩
        subst hkveq
        rcases List.mem_cons.mp hkv with rfl | hkv
        · exact Or.inl rfl
        · exact Or.inr (List.mem_map.mpr ⟨kv, List.mem_cons_of_mem _ hkv, rfl⟩)
      · rw [if_neg h2]
        intro h
        rcases List.mem_map.mp h with ⟨kv, hkv, hkveq⟩
        subst hkveq
        rcases List.mem_cons.mp hkv with rfl | hkv
        · exact Or.inr (List.mem_map.mpr ⟨(k0, v0), List.mem_cons_self _ _, rfl⟩)
        · rcases ih (List.mem_map.mpr ⟨kv, hkv, rfl⟩) with h' | h'
          · exact Or.inl h'
          · refine Or.inr ?_
            rcases List.mem_map.mp h' with ⟨kv', hkv', hkveq'⟩
            exact List.mem_map.mpr ⟨kv', List.mem_cons_of_mem _ hkv', hkveq'⟩

theorem storeKeys_applyDeleteRange_subset {db : Store} {r : KeyRange} {k : String} :
    k ∈ storeKeys (applyDeleteRange db r) → k ∈ storeKeys db := by
  intro h
  obtain ⟨kv, hkv, hkveq⟩ := List.mem_map.mp h
  exact List.mem_map.mpr ⟨kv, List.mem_of_mem_filter hkv, hkveq⟩

/-- A key that is absent and never written stays absent, whatever the
interleaving of deletions and insertions. -/
theorem persistOps_absent (ops : List PersistOp) :
    ∀ (db : Store) (k : String), k ∉ storeKeys db →
      (∀ f : EmbeddedFile, PersistOp.put f ∈ ops → dbKeyForPath f.path ≠ k) →
      k ∉ storeKeys (persistOps db ops) := by
  induction ops with
  | nil => intro db k hk _; exact hk
  | cons op rest ih =>
    intro db k hk hput
    cases op with
    | del r =>
      exact ih (applyDeleteRange db r) k
        (fun h => hk (storeKeys_applyDeleteRange_subset h))
        (fun f hf => hput f (List.mem_cons_of_mem _ hf))
    | put f =>
      refine ih _ k ?_ (fun g hg => hput g (List.mem_cons_of_mem _ hg))
      intro h
      rcases storeKeys_storePut_mem h with h | h
      · exact hput f (List.mem_cons_self _ _) (h ▸ rfl)
      · exact hk h

theorem lookupFile_applyDeleteRange_of_not_covered {db : Store} {r : KeyRange}
    {k : String} (h : inRange r k = false) :
    lookupFile (applyDeleteRange db r) k = lookupFile db k := by
  induction db with
  | nil => rfl
  | cons hd tl ih =>
    obtain ⟨k0, v0⟩ := hd
    rw [applyDeleteRange, List.filter_cons]
    by_cases hc : inRange r k0 = true
    · rw [if_neg (by simp [hc])]
      rw [lookupFile]
      by_cases hk : k = k0
      · subst hk
        exact absurd hc (by simp [h])
      · rw [if_neg hk]
        exact ih
    · rw [if_pos (by simp at hc; simp [hc])]
      rw [lookupFile, lookupFile]
      by_cases hk : k = k0
      · rw [if_pos hk, if_pos hk]
      · rw [if_neg hk, if_neg hk]
        exact ih

end AutoTender

namespace AutoTender

theorem storePut_pairwise {db : Store} (key : String) (f : EmbeddedFile)
    (h : db.Pairwise (fun a b => a.1 < b.1)) :
    (storePut db key f).Pairwise (fun a b => a.1 < b.1) := by
  induction db with
  | nil => simp [storePut]
  | cons hd tl ih =>
    obtain ⟨k0, v0⟩ := hd
    have h' := List.pairwise_cons.mp h
    rw [storePut]
    by_cases h1 : keyLtB key k0
    · rw [if_pos h1]
      refine List.pairwise_cons.mpr ⟨?_, h⟩
      intro kv hkv
      rcases List.mem_cons.mp hkv with rfl | hkv
      · exact keyLtB_iff.mp h1
      · exact lt_trans (keyLtB_iff.mp h1) (h'.1 kv hkv)
    · rw [if_neg h1]
      by_cases h2 : key = k0
      · rw [if_pos h2]
        subst h2
        exact List.pairwise_cons.mpr ⟨fun kv hkv => h'.1 kv hkv, h'.2⟩
      · rw [if_neg h2]
        have hk0key : k0 < key := by
          rcases lt_trichotomy key k0 with hlt | heq | hgt
          · exact absurd (keyLtB_iff.mpr hlt) h1
          · exact absurd heq h2
          · exact hgt
        refine List.pairwise_cons.mpr ⟨?_, ih h'.2⟩
        intro kv hkv
        rcases storeKeys_storePut_mem (List.mem_map.mpr ⟨kv, hkv, rfl⟩) with hkey | hkey
        · exact hkey ▸ hk0key
        · obtain ⟨kv', hkv', hkveq'⟩ := List.mem_map.mp hkey
          exact hkveq' ▸ h'.1 kv' hkv'

theorem persistOps_pairwise (ops : List PersistOp) :
    ∀ {db : Store}, db.Pairwise (fun a b => a.1 < b.1) →
      (persistOps db ops).Pairwise (fun a b => a.1 < b.1) := by
  induction ops with
  | nil => intro db h; exact h
  | cons op rest ih =>
    intro db h
    cases op with
    | del r => exact ih (List.Pairwise.filter _ h)
    | put f => exact ih (storePut_pairwise _ f h)

theorem persistOps_append (db : Store) (l1 l2 : List PersistOp) :
    persistOps db (l1 ++ l2) = persistOps (persistOps db l1) l2 :=
  List.foldl_append _ _ _ _

theorem lookup_persistDels {rs : List KeyRange} :
    ∀ {db : Store} {k : String}, (∀ r ∈ rs, inRange r k = false) →
      lookupFile (persistOps db (rs.map PersistOp.del)) k = lookupFile db k := by
  induction rs with
  | nil => intro db k _; rfl
  | cons r rest ih =>
    intro db k h
    have : persistOps db ((r :: rest).map PersistOp.del) =
        persistOps (applyDeleteRange db r) (rest.map PersistOp.del) := rfl
    rw [this, ih (fun r' hr' => h r' (List.mem_cons_of_mem _ hr')),
      lookupFile_applyDeleteRange_of_not_covered (h r (List.mem_cons_self _ _))]

theorem lookup_persistPuts_none {fs : List EmbeddedFile} :
    ∀ {db : Store} {k : String}, (∀ g ∈ fs, dbKeyForPath g.path ≠ k) →
      lookupFile (persistOps db (fs.map PersistOp.put)) k = lookupFile db k := by
  induction fs with
  | nil => intro db k _; rfl
  | cons g rest ih =>
    intro db k h
    have hstep : persistOps db ((g :: rest).map PersistOp.put) =
        persistOps (storePut db (dbKeyForPath g.path) g) (rest.map PersistOp.put) := rfl
    rw [hstep, ih (fun g' hg' => h g' (List.mem_cons_of_mem _ hg')),
      lookupFile_storePut_other _ _ _ (fun he => h g (List.mem_cons_self _ _) he.symm)]

theorem lookup_persistPuts_unique {fs : List EmbeddedFile} :
    ∀ {db : Store} {k : String} {f : EmbeddedFile},
      fs.filter (fun g => decide (dbKeyForPath g.path = k)) = [f] →
      lookupFile (persistOps db (fs.map PersistOp.put)) k = some f := by
  induction fs with
  | nil => intro db k f h; simp at h
  | cons g rest ih =>
    intro db k f h
    have hstep : persistOps db ((g :: rest).map PersistOp.put) =
        persistOps (storePut db (dbKeyForPath g.path) g) (rest.map PersistOp.put) := rfl
    rw [List.filter_cons] at h
    by_cases hg : dbKeyForPath g.path = k
    · rw [if_pos (by simp [hg])] at h
      obtain ⟨rfl, htail⟩ : g = f ∧ rest.filter (fun g => decide (dbKeyForPath g.path = k)) = [] := by
        have := List.cons.injEq g _ f [] ▸ h
        exact ⟨this.1, this.2⟩
      have hnone : ∀ g' ∈ rest, dbKeyForPath g'.path ≠ k := by
        intro g' hg' heq
        have : g' ∈ rest.filter (fun g => decide (dbKeyForPath g.path = k)) :=
          List.mem_filter.mpr ⟨hg', by simp [heq]⟩
        rw [htail] at this
        exact absurd this (List.not_mem_nil g')
      rw [hstep, lookup_persistPuts_none hnone, ← hg]
      exact lookupFile_storePut_self db _ g
    · rw [if_neg (by simp [hg])] at h
      rw [hstep, ih h]

end AutoTender

namespace AutoTender

theorem forall₂_mem_left {α β : Type} {R : α → β → Prop} {l1 : List α} {l2 : List β}
    (h : List.Forall₂ R l1 l2) : ∀ a ∈ l1, ∃ b ∈ l2, R a b := by
  induction h with
  | nil => simp
  | @cons a b t1 t2 hR htail ih =>
    intro x hx
    rcases List.mem_cons.mp hx with rfl | hx
    · exact ⟨b, List.mem_cons_self _ _, hR⟩
    · obtain ⟨y, hy, hRy⟩ := ih x hx
      exact ⟨y, List.mem_cons_of_mem _ hy, hRy⟩

theorem pairwise_key_inj {live : List Entry}
    (h : live.Pairwise (fun x y => dbKeyForPath x.path < dbKeyForPath y.path)) :
    ∀ e ∈ live, ∀ e' ∈ live, dbKeyForPath e.path = dbKeyForPath e'.path → e = e' := by
  induction live with
  | nil => simp
  | cons e0 rest ih =>
    have h' := List.pairwise_cons.mp h
    intro e he e' he' heq
    rcases List.mem_cons.mp he with rfl | hem
    · rcases List.mem_cons.mp he' with rfl | hem'
      · rfl
      · exact absurd (heq ▸ h'.1 e' hem') (lt_irrefl _)
    · rcases List.mem_cons.mp he' with rfl | hem'
      · exact absurd (heq ▸ h'.1 e hem) (lt_irrefl _)
      · exact ih h'.2 e hem e' hem' heq

/-- Positionally matching files to pairwise-distinct-key updates makes
each update's key select exactly its own file. -/
theorem forall₂_filter_unique {files : List EmbeddedFile} {updates : List Entry}
    (h : List.Forall₂ (fun f e => f.path = e.path ∧ f.mtime = e.mtime) files updates)
    (hinj : updates.Pairwise (fun x y => dbKeyForPath x.path ≠ dbKeyForPath y.path)) :
    ∀ e ∈ updates, ∃ f,
      files.filter (fun g => decide (dbKeyForPath g.path = dbKeyForPath e.path)) = [f] ∧
        f.path = e.path ∧ f.mtime = e.mtime := by
  induction h with
  | nil => simp
  | @cons f0 e0 tailF tailU hR htail ih =>
    have hinj' := List.pairwise_cons.mp hinj
    intro e he
    rcases List.mem_cons.mp he with rfl | he
    · refine ⟨f0, ?_, hR⟩
      rw [List.filter_cons, if_pos (by simp [hR.1])]
      have htailnil : tailF.filter
          (fun g => decide (dbKeyForPath g.path = dbKeyForPath e.path)) = [] := by
        rw [List.filter_eq_nil_iff]
        intro g hg
        obtain ⟨e', he', hg'⟩ := forall₂_mem_left htail g hg
        simp only [decide_eq_true_eq]
        intro heqk
        exact absurd ((congrArg dbKeyForPath hg'.1).symm.trans heqk).symm (hinj'.1 e' he')
      rw [htailnil]
    · rw [List.filter_cons, if_neg (by
        simp only [decide_eq_true_eq]
        intro heqk
        exact absurd ((congrArg dbKeyForPath hR.1).symm.trans heqk) (hinj'.1 e he))]
      exact ih hinj'.2 e he

/-- Idempotence of the full scan, provided the first scan's output was
fully persisted: every deletion range committed, then every updated
entry committed as a record carrying that entry's path and mtime (the
persister commits the deletion stream ahead of insertions it overlaps;
ranges are available as the scan produces them, records only after
chunking and embedding). The second scan then updates nothing. -/
theorem second_scan_updates_nil
    {db : Store} {live : List Entry} {files : List EmbeddedFile}
    (hdb : db.Pairwise (fun a b => a.1 < b.1))
    (hlive : live.Pairwise (fun x y => dbKeyForPath x.path < dbKeyForPath y.path))
    (hfiles : List.Forall₂ (fun f e => f.path = e.path ∧ f.mtime = e.mtime)
      files (scanEntries db live).updates) :
    (scanEntries
      (persistOps db ((scanEntries db live).ranges.map PersistOp.del
        ++ files.map PersistOp.put)) live).updates = [] := by
  have hupdates1 : (scanEntries db live).updates =
      live.filter (fun e => decide (e.mtime ≠ storedMtime db (dbKeyForPath e.path))) :=
    scanGo_updates_eq live db none hdb hlive
  have hsorted' : (persistOps db ((scanEntries db live).ranges.map PersistOp.del
      ++ files.map PersistOp.put)).Pairwise (fun a b => a.1 < b.1) :=
    persistOps_pairwise _ hdb
  rw [scanEntries, scanGo_updates_eq _ _ _ hsorted' hlive, List.filter_eq_nil_iff]
  intro e he
  simp only [decide_eq_true_eq, ne_eq, not_not]
  by_cases hmem : e ∈ (scanEntries db live).updates
  · -- this entry was re-persisted with its current mtime
    have hinj : (scanEntries db live).updates.Pairwise
        (fun x y => dbKeyForPath x.path ≠ dbKeyForPath y.path) := by
      rw [hupdates1]
      exact (List.Pairwise.filter _ hlive).imp ne_of_lt
    obtain ⟨f, hfilter, hfpath, hfmtime⟩ := forall₂_filter_unique hfiles hinj e hmem
    have hlook : lookupFile (persistOps db ((scanEntries db live).ranges.map PersistOp.del
        ++ files.map PersistOp.put)) (dbKeyForPath e.path) = some f := by
      rw [persistOps_append]
      exact lookup_persistPuts_unique hfilter
    rw [storedMtime, hlook]
    exact hfmtime.symm
  · -- this entry was already current; nothing the persister did touches it
    have hsame : e.mtime = storedMtime db (dbKeyForPath e.path) := by
      by_contra hne
      exact hmem (hupdates1 ▸ List.mem_filter.mpr ⟨he, by simpa using hne⟩)
    have hnoput : ∀ g ∈ files, dbKeyForPath g.path ≠ dbKeyForPath e.path := by
      intro g hg heqk
      obtain ⟨e', he'u, hg'⟩ := forall₂_mem_left hfiles g hg
      have he'live : e' ∈ live := by
        rw [hupdates1] at he'u
        exact (List.mem_filter.mp he'u).1
      have : e' = e := pairwise_key_inj hlive e' he'live e he
        ((congrArg dbKeyForPath hg'.1).symm.trans heqk)
      subst this
      exact hmem he'u
    by_cases hin : dbKeyForPath e.path ∈ storeKeys db
    · have hnocover : ∀ r ∈ (scanEntries db live).ranges,
          inRange r (dbKeyForPath e.path) = false :=
        scanGo_no_live_covered live db none hdb hlive (Or.inl rfl) _ hin ⟨e, he, rfl⟩
      have hlook : lookupFile (persistOps db ((scanEntries db live).ranges.map PersistOp.del
          ++ files.map PersistOp.put)) (dbKeyForPath e.path) =
          lookupFile db (dbKeyForPath e.path) := by
        rw [persistOps_append, lookup_persistPuts_none hnoput, lookup_persistDels hnocover]
      rw [storedMtime, hlook, ← storedMtime]
      exact hsame
    · have h2 : lookupFile (persistOps db ((scanEntries db live).ranges.map PersistOp.del
          ++ files.map PersistOp.put)) (dbKeyForPath e.path) = none := by
        rw [lookupFile_eq_none_iff]
        refine persistOps_absent _ db _ hin ?_
        intro g hgop heqk
        rcases List.mem_append.mp hgop with hl | hr
        · obtain ⟨r, -, habs⟩ := List.mem_map.mp hl
          exact PersistOp.noConfusion habs
        · obtain ⟨g', hg', habs⟩ := List.mem_map.mp hr
          obtain rfl := (PersistOp.put.injEq .. ▸ habs)
          exact hnoput g' hg' heqk
      rw [storedMtime, h2]
      rw [storedMtime, lookupFile_eq_none_iff.mpr hin] at hsame
      exact hsame

end AutoTender

namespace AutoTender

/-! ## Embedder lemmas -/

theorem chunksOfGo_eq_of_le {α : Type} {n : Nat} (hn : ¬n = 0) :
    ∀ (fuel : Nat) (xs : List α), xs.length ≤ fuel →
      chunksOfGo n fuel xs = chunksOfGo n xs.length xs := by
  intro fuel
  induction fuel using Nat.strong_induction_on with
  | _ fuel ih =>
    intro xs hlen
    cases xs with
    | nil => cases fuel <;> rfl
    | cons x rest =>
      cases fuel with
      | zero => simp at hlen
      | succ f =>
        rw [chunksOfGo, if_neg hn]
        rw [show (x :: rest).length = rest.length + 1 from rfl, chunksOfGo, if_neg hn]
        have hdlen : ((x :: rest).drop n).length ≤ rest.length := by
          simp only [List.length_drop, List.length_cons]
          omega
        have hflen : rest.length ≤ f := by
          simp only [List.length_cons] at hlen
          omega
        rw [ih f (Nat.lt_succ_self f) _ (le_trans hdlen hflen),
          ih rest.length (Nat.lt_succ_of_le hflen) _ hdlen]

theorem chunksOf_cons {α : Type} {n : Nat} (hn : ¬n = 0) (x : α) (rest : List α) :
    chunksOf n (x :: rest) =
      (x :: rest).take n :: chunksOf n ((x :: rest).drop n) := by
  rw [chunksOf, show (x :: rest).length = rest.length + 1 from rfl, chunksOfGo, if_neg hn,
    chunksOf]
  rw [chunksOfGo_eq_of_le hn rest.length _ (by
    simp only [List.length_drop, List.length_cons]
    omega)]

theorem chunksOf_flatten {α : Type} {n : Nat} (hn : 0 < n) :
    ∀ xs : List α, (chunksOf n xs).flatten = xs := by
  have hne : ¬n = 0 := Nat.pos_iff_ne_zero.mp hn
  have key : ∀ (len : Nat) (xs : List α), xs.length ≤ len → (chunksOf n xs).flatten = xs := by
    intro len
    induction len with
    | zero =>
      intro xs hlen
      obtain rfl := List.eq_nil_of_length_eq_zero (Nat.le_zero.mp hlen)
      simp [chunksOf, chunksOfGo]
    | succ m ih =>
      intro xs hlen
      cases xs with
      | nil => simp [chunksOf, chunksOfGo]
      | cons x rest =>
        rw [chunksOf_cons hne]
        rw [List.flatten_cons, ih _ (by
          simp only [List.length_drop, List.length_cons] at hlen ⊢
          omega)]
        exact List.take_append_drop n (x :: rest)
  exact fun xs => key xs.length xs (le_refl _)

theorem chunksOf_mem_length_le {α : Type} {n : Nat} (hn : 0 < n) :
    ∀ (xs : List α), ∀ b ∈ chunksOf n xs, b.length ≤ n := by
  have hne : ¬n = 0 := Nat.pos_iff_ne_zero.mp hn
  have key : ∀ (len : Nat) (xs : List α), xs.length ≤ len →
      ∀ b ∈ chunksOf n xs, b.length ≤ n := by
    intro len
    induction len with
    | zero =>
      intro xs hlen b hb
      obtain rfl := List.eq_nil_of_length_eq_zero (Nat.le_zero.mp hlen)
      simp [chunksOf, chunksOfGo] at hb
    | succ m ih =>
      intro xs hlen b hb
      cases xs with
      | nil => simp [chunksOf, chunksOfGo] at hb
      | cons x rest =>
        rw [chunksOf_cons hne] at hb
        rcases List.mem_cons.mp hb with rfl | hb
        · simp [List.length_take_le]
        · exact ih _ (by
            simp only [List.length_drop, List.length_cons] at hlen ⊢
            omega) b hb
  exact fun xs => key xs.length xs (le_refl _)

theorem subBatchResult_length (p : EmbeddingProvider) (batch : List TextToEmbed) :
    (subBatchResult p batch).length = batch.length := by
  rw [subBatchResult]
  cases p.embed batch with
  | none => simp
  | some es =>
    by_cases h : es.length = batch.length
    · simp [h]
    · simp [h]

theorem subBatchResult_failed {p : EmbeddingProvider} {batch : List TextToEmbed}
    (h : p.embed batch = none ∨ ∀ es, p.embed batch = some es → es.length ≠ batch.length) :
    subBatchResult p batch = List.replicate batch.length none := by
  cases hE : p.embed batch with
  | none => rw [subBatchResult, hE]
  | some es =>
    rcases h with h | h
    · rw [hE] at h
      exact Option.noConfusion h
    · simp [subBatchResult, hE, h es hE]

theorem subBatchResult_ok {p : EmbeddingProvider} {batch : List TextToEmbed}
    {es : List Embedding} (hE : p.embed batch = some es) (hlen : es.length = batch.length) :
    subBatchResult p batch = es.map some := by
  simp [subBatchResult, hE, hlen]

theorem computeEmbeddings_length {p : EmbeddingProvider} (hn : 0 < p.batchSize)
    (chunks : List TextToEmbed) :
    (computeEmbeddings p chunks).length = chunks.length := by
  have key : ∀ bs : List (List TextToEmbed),
      ((bs.map (subBatchResult p)).flatten).length = bs.flatten.length := by
    intro bs
    induction bs with
    | nil => rfl
    | cons b rest ih => simp [subBatchResult_length, ih]
  rw [computeEmbeddings, key, chunksOf_flatten hn]

theorem computeEmbeddings_split {p : EmbeddingProvider} {chunks : List TextToEmbed}
    {bs1 : List (List TextToEmbed)} {b : List TextToEmbed} {bs2 : List (List TextToEmbed)}
    (h : chunksOf p.batchSize chunks = bs1 ++ b :: bs2) :
    computeEmbeddings p chunks =
      (bs1.map (subBatchResult p)).flatten ++ subBatchResult p b ++
        (bs2.map (subBatchResult p)).flatten := by
  rw [computeEmbeddings, h]
  simp [List.append_assoc]

/-! ## Reassembly lemmas -/

theorem reassembleFile_rest {cs : List Chunk} :
    ∀ {es : List (Option Embedding)}, cs.length ≤ es.length →
      (reassembleFile cs es).rest = es.drop cs.length := by
  induction cs with
  | nil => intro es _; simp [reassembleFile]
  | cons c cs ih =>
    intro es hlen
    cases es with
    | nil => simp at hlen
    | cons o es' =>
      cases o with
      | some e =>
        rw [reassembleFile]
        dsimp only
        rw [ih (by simpa using hlen)]
        rfl
      | none =>
        rw [reassembleFile]
        dsimp only
        rw [ih (by simpa using hlen)]
        rfl

theorem reassembleFile_allEmbedded {cs : List Chunk} :
    ∀ {es : List (Option Embedding)}, cs.length ≤ es.length →
      (reassembleFile cs es).allEmbedded = (es.take cs.length).all Option.isSome := by
  induction cs with
  | nil => intro es _; simp [reassembleFile]
  | cons c cs ih =>
    intro es hlen
    cases es with
    | nil => simp at hlen
    | cons o es' =>
      cases o with
      | some e =>
        rw [reassembleFile]
        dsimp only
        rw [ih (by simpa using hlen)]
        simp
      | none =>
        rw [reassembleFile]
        dsimp only
        simp

theorem reassembleFile_spec_of_all {cs : List Chunk} :
    ∀ {es : List (Option Embedding)}, cs.length ≤ es.length →
      (es.take cs.length).all Option.isSome = true →
      (reassembleFile cs es).chunks.map EmbeddedChunk.chunk = cs ∧
        (reassembleFile cs es).chunks.map (fun ec => some ec.embedding) =
          es.take cs.length := by
  induction cs with
  | nil => intro es _ _; simp [reassembleFile]
  | cons c cs ih =>
    intro es hlen hall
    cases es with
    | nil => simp at hlen
    | cons o es' =>
      cases o with
      | some e =>
        simp only [List.length_cons, List.take_succ_cons, List.all_cons] at hall
        obtain ⟨h1, h2⟩ := ih (by simpa using hlen) (by simpa using hall)
        rw [reassembleFile]
        dsimp only
        simp [List.length_cons, List.take_succ_cons, h1, h2]
      | none =>
        simp only [List.length_cons, List.take_succ_cons, List.all_cons] at hall
        simp at hall

end AutoTender

namespace AutoTender

theorem flatChunks_cons (cf : ChunkedFile) (rest : List ChunkedFile) :
    flatChunks (cf :: rest) = fileTextsToEmbed cf ++ flatChunks rest := by
  simp [flatChunks]

theorem fileTextsToEmbed_length (cf : ChunkedFile) :
    (fileTextsToEmbed cf).length = cf.chunks.length := by
  simp [fileTextsToEmbed]

theorem flatChunks_cons_length (cf : ChunkedFile) (rest : List ChunkedFile) :
    (flatChunks (cf :: rest)).length = cf.chunks.length + (flatChunks rest).length := by
  rw [flatChunks_cons]
  simp [fileTextsToEmbed_length]

/-- Every emitted embedded file stems from a batch file, reproducing
its path, mtime and text, and carrying that file's complete chunk list
in order. -/
theorem reassemble_mem {files : List ChunkedFile} :
    ∀ {embs : List (Option Embedding)}, (flatChunks files).length ≤ embs.length →
      ∀ ef ∈ reassemble files embs, ∃ cf ∈ files, ef.path = cf.path ∧
        ef.mtime = cf.mtime ∧ ef.text = cf.text ∧
        ef.chunks.map EmbeddedChunk.chunk = cf.chunks := by
  induction files with
  | nil => intro embs _ ef hef; simp [reassemble] at hef
  | cons cf0 rest ih =>
    intro embs hlen ef hef
    have hlen0 : cf0.chunks.length ≤ embs.length := by
      rw [flatChunks_cons_length] at hlen
      omega
    have hlenrest : (flatChunks rest).length ≤
        ((reassembleFile cf0.chunks embs).rest).length := by
      rw [reassembleFile_rest hlen0, List.length_drop, flatChunks_cons_length] at *
      omega
    rw [reassemble] at hef
    by_cases hall : (reassembleFile cf0.chunks embs).allEmbedded = true
    · rw [if_pos hall] at hef
      rcases List.mem_cons.mp hef with rfl | hef
      · refine ⟨cf0, List.mem_cons_self _ _, rfl, rfl, rfl, ?_⟩
        have hAll' : (embs.take cf0.chunks.length).all Option.isSome = true := by
          rw [← reassembleFile_allEmbedded hlen0]
          exact hall
        exact (reassembleFile_spec_of_all hlen0 hAll').1
      · obtain ⟨cf', hcf', hprops⟩ := ih hlenrest ef hef
        exact ⟨cf', List.mem_cons_of_mem _ hcf', hprops⟩
    · rw [if_neg hall] at hef
      obtain ⟨cf', hcf', hprops⟩ := ih hlenrest ef hef
      exact ⟨cf', List.mem_cons_of_mem _ hcf', hprops⟩

/-- A batch file one of whose chunks received no embedding is never
emitted: no embedded file of the batch carries its path, provided no
other batch file shares that path. -/
theorem reassemble_failed_absent :
    ∀ (fpre : List ChunkedFile) {cf : ChunkedFile} {fpost : List ChunkedFile}
      {embs : List (Option Embedding)},
      (flatChunks (fpre ++ cf :: fpost)).length ≤ embs.length →
      ((embs.drop (flatChunks fpre).length).take cf.chunks.length).all Option.isSome = false →
      (∀ cf' ∈ fpre ++ fpost, cf'.path ≠ cf.path) →
      ∀ ef ∈ reassemble (fpre ++ cf :: fpost) embs, ef.path ≠ cf.path := by
  intro fpre
  induction fpre with
  | nil =>
    intro cf fpost embs hlen hfail hdist ef hef
    simp only [List.nil_append] at hlen hef
    have hlen0 : cf.chunks.length ≤ embs.length := by
      rw [flatChunks_cons_length] at hlen
      omega
    have hallfalse : (reassembleFile cf.chunks embs).allEmbedded = false := by
      rw [reassembleFile_allEmbedded hlen0]
      simpa [flatChunks] using hfail
    rw [reassemble] at hef
    rw [if_neg (by simp [hallfalse])] at hef
    have hlenrest : (flatChunks fpost).length ≤
        ((reassembleFile cf.chunks embs).rest).length := by
      rw [reassembleFile_rest hlen0, List.length_drop, flatChunks_cons_length] at *
      omega
    obtain ⟨cf', hcf', hpath, -⟩ := reassemble_mem hlenrest ef hef
    rw [hpath]
    exact hdist cf' (by simpa using hcf')
  | cons f0 fpre' ih =>
    intro cf fpost embs hlen hfail hdist ef hef
    rw [List.cons_append] at hef
    have hlen0 : f0.chunks.length ≤ embs.length := by
      rw [List.cons_append, flatChunks_cons_length] at hlen
      omega
    have hrest_eq : (reassembleFile f0.chunks embs).rest =
        embs.drop f0.chunks.length := reassembleFile_rest hlen0
    have hlen' : (flatChunks (fpre' ++ cf :: fpost)).length ≤
        (embs.drop f0.chunks.length).length := by
      rw [List.length_drop]
      rw [List.cons_append, flatChunks_cons_length] at hlen
      omega
    have hfail' : (((embs.drop f0.chunks.length).drop
        (flatChunks fpre').length).take cf.chunks.length).all Option.isSome = false := by
      rw [List.drop_drop]
      rw [flatChunks_cons_length] at hfail
      exact hfail
    have hdist' : ∀ cf' ∈ fpre' ++ fpost, cf'.path ≠ cf.path := by
      intro cf' hcf'
      refine hdist cf' ?_
      rcases List.mem_append.mp hcf' with h | h
      · exact List.mem_append_left _ (List.mem_cons_of_mem _ h)
      · exact List.mem_append_right _ h
    have hf0 : f0.path ≠ cf.path :=
      hdist f0 (List.mem_append_left _ (List.mem_cons_self _ _))
    rw [reassemble] at hef
    by_cases hall : (reassembleFile f0.chunks embs).allEmbedded = true
    · rw [if_pos hall] at hef
      rcases List.mem_cons.mp hef with rfl | hef
      · exact hf0
      · rw [hrest_eq] at hef
        exact ih hlen' hfail' hdist' ef hef
    · rw [if_neg hall] at hef
      rw [hrest_eq] at hef
      exact ih hlen' hfail' hdist' ef hef

end AutoTender

namespace AutoTender

/-! ## Claim theorems -/

theorem scanUpdatedEntries_append (w : Nat → Option Entry)
    (l1 l2 : List (String × Nat × PathChange)) :
    scanUpdatedEntries w (l1 ++ l2) =
      ⟨(scanUpdatedEntries w l1).updates ++ (scanUpdatedEntries w l2).updates,
        (scanUpdatedEntries w l1).ranges ++ (scanUpdatedEntries w l2).ranges,
        (scanUpdatedEntries w l1).registered ++ (scanUpdatedEntries w l2).registered⟩ := by
  induction l1 with
  | nil => simp [scanUpdatedEntries]
  | cons ev rest ih =>
    obtain ⟨path, entryId, status⟩ := ev
    cases status with
    | added =>
      rw [List.cons_append, scanUpdatedEntries, scanUpdatedEntries, ih]
      cases w entryId with
      | none => rfl
      | some en =>
        dsimp only
        by_cases hf : en.isFile <;> simp [hf]
    | updated =>
      rw [List.cons_append, scanUpdatedEntries, scanUpdatedEntries, ih]
      cases w entryId with
      | none => rfl
      | some en =>
        dsimp only
        by_cases hf : en.isFile <;> simp [hf]
    | addedOrUpdated =>
      rw [List.cons_append, scanUpdatedEntries, scanUpdatedEntries, ih]
      cases w entryId with
      | none => rfl
      | some en =>
        dsimp only
        by_cases hf : en.isFile <;> simp [hf]
    | removed =>
      rw [List.cons_append, scanUpdatedEntries, scanUpdatedEntries, ih]
      simp
    | loaded =>
      rw [List.cons_append, scanUpdatedEntries, scanUpdatedEntries, ih]

/-- C3: on the store with keys a, c, e and the live files b, c, d where
c's modification token is unchanged, the full scan's deletion ranges
cover exactly the stored keys a and e, and exactly b and d are emitted
on updated_entries. -/
theorem scan_sorted_merge_example :
    ((storeKeys [("a", exFile "a" (some 1)), ("c", exFile "c" (some 2)),
        ("e", exFile "e" (some 3))]).filter (fun k =>
      (scanEntries [("a", exFile "a" (some 1)), ("c", exFile "c" (some 2)),
        ("e", exFile "e" (some 3))]
        [exEntry 1 "b" (some 10), exEntry 2 "c" (some 2), exEntry 3 "d" (some 11)]).ranges.any
          (fun r => inRange r k)) = ["a", "e"]) ∧
    (scanEntries [("a", exFile "a" (some 1)), ("c", exFile "c" (some 2)),
        ("e", exFile "e" (some 3))]
      [exEntry 1 "b" (some 10), exEntry 2 "c" (some 2), exEntry 3 "d" (some 11)]).updates.map
        Entry.path = ["b", "d"] := by
  decide

/-- C8: in an incremental scan, a Removed change for path x contributes
exactly one deletion range, with both bounds inclusive and equal to x's
store key, and nothing on updated_entries or the in-flight set; a
Loaded change contributes nothing at all. -/
theorem incremental_removed_single_range (w : Nat → Option Entry)
    (pre post : List (String × Nat × PathChange)) (x : String) (i : Nat) :
    (scanUpdatedEntries w [(x, i, PathChange.removed)] =
      ⟨[], [(Bound.included (dbKeyForPath x), Bound.included (dbKeyForPath x))], []⟩) ∧
    (scanUpdatedEntries w (pre ++ (x, i, PathChange.removed) :: post) =
      ⟨(scanUpdatedEntries w pre).updates ++ (scanUpdatedEntries w post).updates,
        (scanUpdatedEntries w pre).ranges ++
          (Bound.included (dbKeyForPath x), Bound.included (dbKeyForPath x))
            :: (scanUpdatedEntries w post).ranges,
        (scanUpdatedEntries w pre).registered ++ (scanUpdatedEntries w post).registered⟩) ∧
    (scanUpdatedEntries w (pre ++ (x, i, PathChange.loaded) :: post) =
      ⟨(scanUpdatedEntries w pre).updates ++ (scanUpdatedEntries w post).updates,
        (scanUpdatedEntries w pre).ranges ++ (scanUpdatedEntries w post).ranges,
        (scanUpdatedEntries w pre).registered ++ (scanUpdatedEntries w post).registered⟩) := by
  refine ⟨rfl, ?_, ?_⟩
  · rw [scanUpdatedEntries_append]
    rw [show scanUpdatedEntries w ((x, i, PathChange.removed) :: post) =
      ⟨(scanUpdatedEntries w post).updates,
        (Bound.included (dbKeyForPath x), Bound.included (dbKeyForPath x))
          :: (scanUpdatedEntries w post).ranges,
        (scanUpdatedEntries w post).registered⟩ from rfl]
  · rw [scanUpdatedEntries_append]
    rw [show scanUpdatedEntries w ((x, i, PathChange.loaded) :: post) =
      scanUpdatedEntries w post from rfl]

/-- C9: in an incremental scan, an Added, Updated or AddedOrUpdated
change whose entry id resolves to nothing in the worktree snapshot, or
resolves to a non-file entry, contributes nothing: no update, no
deletion range, no in-flight registration. -/
theorem incremental_nonfile_ignored (w : Nat → Option Entry)
    (pre post : List (String × Nat × PathChange)) (x : String) (i : Nat)
    (kind : PathChange)
    (hkind : kind = PathChange.added ∨ kind = PathChange.updated ∨
      kind = PathChange.addedOrUpdated)
    (hmiss : w i = none ∨ ∃ en, w i = some en ∧ en.isFile = false) :
    scanUpdatedEntries w (pre ++ (x, i, kind) :: post) =
      ⟨(scanUpdatedEntries w pre).updates ++ (scanUpdatedEntries w post).updates,
        (scanUpdatedEntries w pre).ranges ++ (scanUpdatedEntries w post).ranges,
        (scanUpdatedEntries w pre).registered ++ (scanUpdatedEntries w post).registered⟩ := by
  have hstep : scanUpdatedEntries w ((x, i, kind) :: post) = scanUpdatedEntries w post := by
    rcases hkind with rfl | rfl | rfl <;>
      · rw [scanUpdatedEntries]
        rcases hmiss with hm | ⟨en, hm, hfile⟩
        · rw [hm]
        · rw [hm]
          dsimp only
          rw [if_neg (by simp [hfile])]
  rw [scanUpdatedEntries_append, hstep]

/-- C9 witness: a concrete Added change with an id unknown to the
snapshot contributes nothing. -/
theorem incremental_nonfile_ignored_witness :
    (PathChange.added = PathChange.added ∨ PathChange.added = PathChange.updated ∨
      PathChange.added = PathChange.addedOrUpdated) ∧
    ((fun _ : Nat => (none : Option Entry)) 7 = none ∨
      ∃ en, (fun _ : Nat => (none : Option Entry)) 7 = some en ∧ en.isFile = false) ∧
    scanUpdatedEntries (fun _ => none) ([] ++ ("x", 7, PathChange.added) :: []) =
      ⟨(scanUpdatedEntries (fun _ : Nat => (none : Option Entry)) []).updates ++
          (scanUpdatedEntries (fun _ : Nat => (none : Option Entry)) []).updates,
        (scanUpdatedEntries (fun _ : Nat => (none : Option Entry)) []).ranges ++
          (scanUpdatedEntries (fun _ : Nat => (none : Option Entry)) []).ranges,
        (scanUpdatedEntries (fun _ : Nat => (none : Option Entry)) []).registered ++
          (scanUpdatedEntries (fun _ : Nat => (none : Option Entry)) []).registered⟩ :=
  ⟨Or.inl rfl, Or.inl rfl,
    incremental_nonfile_ignored (fun _ => none) [] [] "x" 7 PathChange.added
      (Or.inl rfl) (Or.inl rfl)⟩

/-- C10: the recognized-extension list contains the plain-text formats
txt, csv, tsv, json, html and xml; a file whose extension is in the
list is loaded through the external conversion command alone — skipped
when conversion fails — while direct text loading serves exactly the
extensions outside the list. -/
theorem chunk_dispatch_extensions :
    (["txt", "csv", "tsv", "json", "html", "xml"].all
      (fun e => MARKITDOWN_EXTENSIONS.contains e) = true) ∧
    (∀ ext convert load, MARKITDOWN_EXTENSIONS.contains ext = true →
      (convert = none → chunkFileText ext convert load = none) ∧
      (∀ md, convert = some md → chunkFileText ext convert load = some (md, true))) ∧
    (∀ ext convert load, MARKITDOWN_EXTENSIONS.contains ext = false →
      (load = none → chunkFileText ext convert load = none) ∧
      (∀ t, load = some t → chunkFileText ext convert load = some (t, false))) := by
  refine ⟨by decide, ?_, ?_⟩
  · intro ext convert load hc
    constructor
    · rintro rfl
      rw [chunkFileText, if_pos hc]
      rfl
    · rintro md rfl
      rw [chunkFileText, if_pos hc]
      rfl
  · intro ext convert load hc
    constructor
    · rintro rfl
      rw [chunkFileText, if_neg (by simpa using hc)]
      rfl
    · rintro t rfl
      rw [chunkFileText, if_neg (by simpa using hc)]
      rfl

/-- C10 witness: "txt" is recognized and conversion output is what gets
chunked; an unrecognized extension falls back to direct loading. -/
theorem chunk_dispatch_extensions_witness :
    MARKITDOWN_EXTENSIONS.contains "txt" = true ∧
    chunkFileText "txt" (some "md") (some "raw") = some ("md", true) ∧
    MARKITDOWN_EXTENSIONS.contains "rs" = false ∧
    chunkFileText "rs" (some "md") (some "raw") = some ("raw", false) :=
  ⟨by decide,
    (chunk_dispatch_extensions.2.1 "txt" (some "md") (some "raw") (by decide)).2 "md" rfl,
    by decide,
    (chunk_dispatch_extensions.2.2 "rs" (some "md") (some "raw") (by decide)).2 "raw" rfl⟩

end AutoTender

namespace AutoTender

/-- C1 counterexample: with the single stored key a and the single live
file b, the stored key a equals no live file's key, yet the scan emits
no deletion range at all — the open pending range holding a is dropped
when the live files run out without a matching stored key, so a is not
covered. -/
theorem scan_full_deletion_coverage_cex :
    SortedKeys [("a", exFile "a" (some 1))] ∧
    SortedLive [exEntry 1 "b" (some 10)] ∧
    (∀ e ∈ [exEntry 1 "b" (some 10)], dbKeyForPath e.path ≠ "a") ∧
    "a" ∈ storeKeys [("a", exFile "a" (some 1))] ∧
    (scanEntries [("a", exFile "a" (some 1))] [exEntry 1 "b" (some 10)]).ranges = [] ∧
    ¬∃ r ∈ (scanEntries [("a", exFile "a" (some 1))] [exEntry 1 "b" (some 10)]).ranges,
      inRange r "a" = true := by
  decide

/-- C1 (amended): on a sorted store and sorted live list, the emitted
deletion ranges cover every persisted key that equals no live file's
key and that either sorts before some live file whose key is also
persisted (the match that flushes the open range) or sorts after every
live file's key (the final unbounded-end range); and they cover no
persisted key that equals a live file's key. A pending open range never
closed by such a match is dropped, not emitted. -/
theorem scan_full_deletion_coverage (db : Store) (live : List Entry)
    (hdb : SortedKeys db) (hlive : SortedLive live) :
    (∀ k ∈ storeKeys db,
      (∀ e ∈ live, dbKeyForPath e.path ≠ k) →
      ((∃ e ∈ live, dbKeyForPath e.path ∈ storeKeys db ∧ k < dbKeyForPath e.path) ∨
        (∀ e ∈ live, dbKeyForPath e.path < k)) →
      ∃ r ∈ (scanEntries db live).ranges, inRange r k = true) ∧
    (∀ k ∈ storeKeys db, (∃ e ∈ live, dbKeyForPath e.path = k) →
      ∀ r ∈ (scanEntries db live).ranges, inRange r k = false) := by
  have hdb' : db.Pairwise (fun a b => a.1 < b.1) :=
    List.Pairwise.imp (fun h => keyLtB_iff.mp h) hdb
  have hlive' : live.Pairwise
      (fun a b => dbKeyForPath a.path < dbKeyForPath b.path) :=
    List.Pairwise.imp (fun h => keyLtB_iff.mp h) hlive
  exact ⟨scanGo_covers live db none hdb' hlive' (Or.inl rfl),
    scanGo_no_live_covered live db none hdb' hlive' (Or.inl rfl)⟩

/-- C1 witness: the amended coverage statement instantiated on the
store with keys a, c, e against the live files b, c, d. -/
theorem scan_full_deletion_coverage_witness :
    SortedKeys [("a", exFile "a" (some 1)), ("c", exFile "c" (some 2)),
      ("e", exFile "e" (some 3))] ∧
    SortedLive [exEntry 1 "b" (some 10), exEntry 2 "c" (some 2), exEntry 3 "d" (some 11)] ∧
    ((∀ k ∈ storeKeys [("a", exFile "a" (some 1)), ("c", exFile "c" (some 2)),
        ("e", exFile "e" (some 3))],
      (∀ e ∈ [exEntry 1 "b" (some 10), exEntry 2 "c" (some 2), exEntry 3 "d" (some 11)],
        dbKeyForPath e.path ≠ k) →
      ((∃ e ∈ [exEntry 1 "b" (some 10), exEntry 2 "c" (some 2), exEntry 3 "d" (some 11)],
          dbKeyForPath e.path ∈ storeKeys [("a", exFile "a" (some 1)),
            ("c", exFile "c" (some 2)), ("e", exFile "e" (some 3))] ∧
          k < dbKeyForPath e.path) ∨
        (∀ e ∈ [exEntry 1 "b" (some 10), exEntry 2 "c" (some 2), exEntry 3 "d" (some 11)],
          dbKeyForPath e.path < k)) →
      ∃ r ∈ (scanEntries [("a", exFile "a" (some 1)), ("c", exFile "c" (some 2)),
          ("e", exFile "e" (some 3))]
        [exEntry 1 "b" (some 10), exEntry 2 "c" (some 2), exEntry 3 "d" (some 11)]).ranges,
        inRange r k = true) ∧
    (∀ k ∈ storeKeys [("a", exFile "a" (some 1)), ("c", exFile "c" (some 2)),
        ("e", exFile "e" (some 3))],
      (∃ e ∈ [exEntry 1 "b" (some 10), exEntry 2 "c" (some 2), exEntry 3 "d" (some 11)],
        dbKeyForPath e.path = k) →
      ∀ r ∈ (scanEntries [("a", exFile "a" (some 1)), ("c", exFile "c" (some 2)),
          ("e", exFile "e" (some 3))]
        [exEntry 1 "b" (some 10), exEntry 2 "c" (some 2), exEntry 3 "d" (some 11)]).ranges,
        inRange r k = false)) :=
  ⟨by decide, by decide,
    scan_full_deletion_coverage
      [("a", exFile "a" (some 1)), ("c", exFile "c" (some 2)), ("e", exFile "e" (some 3))]
      [exEntry 1 "b" (some 10), exEntry 2 "c" (some 2), exEntry 3 "d" (some 11)]
      (by decide) (by decide)⟩

/-- C4 counterexample: a newly present live file whose own modification
token is absent is neither registered nor emitted — the scan compares
the absent token against the absent saved token and finds them equal,
although the claim's force-reindex reading requires emission. -/
theorem scan_update_emission_rule_cex :
    storeKeys ([] : Store) = [] ∧
    (scanEntries [] [exEntry 1 "a" none]).updates = [] ∧
    (scanEntries [] [exEntry 1 "a" none]).registered = [] := by
  decide

/-- C4 (amended): on a full scan over sorted inputs, a live file is
registered in the in-flight set and emitted on updated_entries exactly
when its modification token differs from the saved one, where the saved
token is absent both for a missing record and for a record whose stored
token is absent; in particular a newly present file with a present
token is emitted, but a file whose own token is absent is skipped
whenever no stored token exists. -/
theorem scan_update_emission_rule (db : Store) (live : List Entry)
    (hdb : SortedKeys db) (hlive : SortedLive live) :
    (scanEntries db live).updates =
      live.filter (fun e => decide (e.mtime ≠ storedMtime db (dbKeyForPath e.path))) ∧
    (scanEntries db live).registered = (scanEntries db live).updates.map Entry.id := by
  have hdb' : db.Pairwise (fun a b => a.1 < b.1) :=
    List.Pairwise.imp (fun h => keyLtB_iff.mp h) hdb
  have hlive' : live.Pairwise
      (fun a b => dbKeyForPath a.path < dbKeyForPath b.path) :=
    List.Pairwise.imp (fun h => keyLtB_iff.mp h) hlive
  exact ⟨scanGo_updates_eq live db none hdb' hlive', scanGo_registered_eq live db none⟩

/-- C4 witness: the emission rule instantiated on a store holding a
with an older token, against live files a (changed) and b (new). -/
theorem scan_update_emission_rule_witness :
    SortedKeys [("a", exFile "a" (some 1))] ∧
    SortedLive [exEntry 1 "a" (some 2), exEntry 2 "b" (some 3)] ∧
    ((scanEntries [("a", exFile "a" (some 1))]
        [exEntry 1 "a" (some 2), exEntry 2 "b" (some 3)]).updates =
      [exEntry 1 "a" (some 2), exEntry 2 "b" (some 3)].filter
        (fun e => decide (e.mtime ≠ storedMtime [("a", exFile "a" (some 1))]
          (dbKeyForPath e.path))) ∧
      (scanEntries [("a", exFile "a" (some 1))]
          [exEntry 1 "a" (some 2), exEntry 2 "b" (some 3)]).registered =
        (scanEntries [("a", exFile "a" (some 1))]
          [exEntry 1 "a" (some 2), exEntry 2 "b" (some 3)]).updates.map Entry.id) :=
  ⟨by decide, by decide,
    scan_update_emission_rule [("a", exFile "a" (some 1))]
      [exEntry 1 "a" (some 2), exEntry 2 "b" (some 3)] (by decide) (by decide)⟩

end AutoTender

namespace AutoTender

/-- A 3-chunk file whose texts are the single characters of "abc". -/
def c2cf : ChunkedFile :=
  ⟨"f", some 1, 0, "abc", [⟨0, 1, 10⟩, ⟨1, 2, 11⟩, ⟨2, 3, 12⟩]⟩

/-- A provider with batch size 1 that fails exactly on the sub-batch
holding the digest-11 chunk (chunk #2 of `c2cf`). -/
def c2p : EmbeddingProvider :=
  ⟨1, fun batch =>
    if batch.any (fun t => t.digest == 11) then none
    else some (batch.map (fun _ => ⟨0⟩))⟩

example : embedFilesBatch c2p [c2cf] = [] := by decide

example :
    computeEmbeddings c2p (flatChunks [c2cf]) = [some ⟨0⟩, none, some ⟨0⟩] := by decide

end AutoTender

namespace AutoTender

/-- C2: when embedding fails for any chunk of a batch file, the
embedder emits no record for that file; under any interleaving the
persister can produce, a file not previously stored is then absent from
the store after the run; and every record the embedder does emit
carries its source file's complete chunk list, each element paired with
an embedding. The other batch files are assumed to sit at other store
keys — the pipeline holds at most one in-flight record per path. -/
theorem embed_completeness_or_nothing
    (p : EmbeddingProvider) (hbs : 0 < p.batchSize)
    (fpre : List ChunkedFile) (cf : ChunkedFile) (fpost : List ChunkedFile)
    (hfail : (((computeEmbeddings p (flatChunks (fpre ++ cf :: fpost))).drop
        (flatChunks fpre).length).take cf.chunks.length).all Option.isSome = false)
    (hdist : ∀ cf' ∈ fpre ++ fpost, dbKeyForPath cf'.path ≠ dbKeyForPath cf.path)
    (db : Store) (hout : dbKeyForPath cf.path ∉ storeKeys db)
    (rs : List KeyRange) (ops : List PersistOp)
    (hinter : IsInterleaving ops rs (embedFilesBatch p (fpre ++ cf :: fpost))) :
    (∀ ef ∈ embedFilesBatch p (fpre ++ cf :: fpost), ef.path ≠ cf.path) ∧
    dbKeyForPath cf.path ∉ storeKeys (persistOps db ops) ∧
    (∀ ef ∈ embedFilesBatch p (fpre ++ cf :: fpost), ∃ cf' ∈ fpre ++ cf :: fpost,
      ef.path = cf'.path ∧ ef.chunks.map EmbeddedChunk.chunk = cf'.chunks) := by
  have hlen : (flatChunks (fpre ++ cf :: fpost)).length ≤
      (computeEmbeddings p (flatChunks (fpre ++ cf :: fpost))).length :=
    le_of_eq (computeEmbeddings_length hbs _).symm
  have hdist' : ∀ cf' ∈ fpre ++ fpost, cf'.path ≠ cf.path := by
    intro cf' h hp
    exact hdist cf' h (by rw [hp])
  have hnotcf : ∀ ef ∈ embedFilesBatch p (fpre ++ cf :: fpost), ef.path ≠ cf.path :=
    fun ef hef => reassemble_failed_absent fpre hlen hfail hdist' ef hef
  refine ⟨hnotcf, ?_, fun ef hef => ?_⟩
  · refine persistOps_absent ops db _ hout ?_
    intro f hput heqk
    have hf : f ∈ embedFilesBatch p (fpre ++ cf :: fpost) := by
      rw [← hinter.2]
      exact List.mem_filterMap.mpr ⟨PersistOp.put f, hput, rfl⟩
    obtain ⟨cf', hcf', hpath, -, -, -⟩ := reassemble_mem hlen f hf
    have hkey' : dbKeyForPath cf'.path = dbKeyForPath cf.path :=
      (congrArg dbKeyForPath hpath).symm.trans heqk
    rcases List.mem_append.mp hcf' with h | h
    · exact hdist cf' (List.mem_append_left _ h) hkey'
    · rcases List.mem_cons.mp h with rfl | h
      · exact hnotcf f hf hpath
      · exact hdist cf' (List.mem_append_right _ h) hkey'
  · obtain ⟨cf', hcf', h1, -, -, h4⟩ := reassemble_mem hlen ef hef
    exact ⟨cf', hcf', h1, h4⟩

/-- C2 witness: the 3-chunk file whose chunk #2 fails is dropped whole;
with an empty store and the empty run output, its key stays absent. -/
theorem embed_completeness_or_nothing_witness :
    0 < c2p.batchSize ∧
    ((((computeEmbeddings c2p (flatChunks ([] ++ c2cf :: []))).drop
        (flatChunks []).length).take c2cf.chunks.length).all Option.isSome = false) ∧
    IsInterleaving [] [] (embedFilesBatch c2p ([] ++ c2cf :: [])) ∧
    ((∀ ef ∈ embedFilesBatch c2p ([] ++ c2cf :: []), ef.path ≠ c2cf.path) ∧
      dbKeyForPath c2cf.path ∉ storeKeys (persistOps [] []) ∧
      (∀ ef ∈ embedFilesBatch c2p ([] ++ c2cf :: []), ∃ cf' ∈ [] ++ c2cf :: [],
        ef.path = cf'.path ∧ ef.chunks.map EmbeddedChunk.chunk = cf'.chunks)) :=
  ⟨by decide, by decide, ⟨rfl, by decide⟩,
    embed_completeness_or_nothing c2p (by decide) [] c2cf [] (by decide)
      (by decide) [] (by decide) [] [] ⟨rfl, by decide⟩⟩

/-- C5: a file that embedded completely and was committed to the store
answers a chunks_for_path query with exactly the chunk list it was
committed with — the chunker's chunks for the file's content, complete,
in order, each carrying its embedding. -/
theorem indexed_file_roundtrip
    (p : EmbeddingProvider) (hbs : 0 < p.batchSize)
    (files : List ChunkedFile) (s : Store)
    (ef : EmbeddedFile) (hef : ef ∈ embedFilesBatch p files) :
    chunksForPath (applyOp s (PersistOp.put ef)) ef.path = some ef.chunks ∧
    ∃ cf ∈ files, ef.path = cf.path ∧ ef.text = cf.text ∧
      ef.chunks.map EmbeddedChunk.chunk = cf.chunks := by
  have hlen : (flatChunks files).length ≤ (computeEmbeddings p (flatChunks files)).length :=
    le_of_eq (computeEmbeddings_length hbs _).symm
  constructor
  · rw [chunksForPath, applyOp, lookupFile_storePut_self]
    rfl
  · obtain ⟨cf, hcf, h1, -, h3, h4⟩ := reassemble_mem hlen ef hef
    exact ⟨cf, hcf, h1, h3, h4⟩

/-- A 2-chunk file whose every chunk embeds successfully. -/
def c5cf : ChunkedFile := ⟨"g", some 4, 0, "ab", [⟨0, 1, 20⟩, ⟨1, 2, 21⟩]⟩

/-- A provider with batch size 1 that embeds everything. -/
def c5p : EmbeddingProvider := ⟨1, fun batch => some (batch.map (fun _ => ⟨7⟩))⟩

/-- The record the embedder emits for `c5cf` under `c5p`. -/
def c5ef : EmbeddedFile :=
  ⟨"g", some 4, [⟨⟨0, 1, 20⟩, ⟨7⟩⟩, ⟨⟨1, 2, 21⟩, ⟨7⟩⟩], "ab"⟩

/-- C5 witness: the concrete 2-chunk file commits and reads back its
own chunk list. -/
theorem indexed_file_roundtrip_witness :
    0 < c5p.batchSize ∧ c5ef ∈ embedFilesBatch c5p [c5cf] ∧
    (chunksForPath (applyOp [] (PersistOp.put c5ef)) c5ef.path = some c5ef.chunks ∧
      ∃ cf ∈ [c5cf], c5ef.path = cf.path ∧ c5ef.text = cf.text ∧
        c5ef.chunks.map EmbeddedChunk.chunk = cf.chunks) :=
  ⟨by decide, by decide,
    indexed_file_roundtrip c5p (by decide) [c5cf] [] c5ef (by decide)⟩

/-- C7: the embedder cuts the micro-batch's flattened chunk sequence
into consecutive sub-batches of at most the provider's declared batch
size; the whole flat sequence receives exactly one verdict per chunk
(the stage completes); a sub-batch on which the provider errors, or
returns the wrong number of embeddings, contributes all-failed
verdicts, while every other sub-batch contributes its own provider
result unchanged. -/
theorem embed_subbatch_failure_policy
    (p : EmbeddingProvider) (hbs : 0 < p.batchSize) (files : List ChunkedFile) :
    ((chunksOf p.batchSize (flatChunks files)).flatten = flatChunks files) ∧
    (∀ b ∈ chunksOf p.batchSize (flatChunks files), b.length ≤ p.batchSize) ∧
    ((computeEmbeddings p (flatChunks files)).length = (flatChunks files).length) ∧
    (∀ bs1 b bs2, chunksOf p.batchSize (flatChunks files) = bs1 ++ b :: bs2 →
      ((p.embed b = none ∨ ∀ es, p.embed b = some es → es.length ≠ b.length) →
        computeEmbeddings p (flatChunks files) =
          (bs1.map (subBatchResult p)).flatten ++ List.replicate b.length none ++
            (bs2.map (subBatchResult p)).flatten) ∧
      (∀ es, p.embed b = some es → es.length = b.length →
        computeEmbeddings p (flatChunks files) =
          (bs1.map (subBatchResult p)).flatten ++ es.map some ++
            (bs2.map (subBatchResult p)).flatten)) := by
  refine ⟨chunksOf_flatten hbs _, chunksOf_mem_length_le hbs _,
    computeEmbeddings_length hbs _, ?_⟩
  intro bs1 b bs2 hsplit
  constructor
  · intro hfail
    rw [computeEmbeddings_split hsplit, subBatchResult_failed hfail]
  · intro es hE hlen
    rw [computeEmbeddings_split hsplit, subBatchResult_ok hE hlen]

/-- C7 witness: the failure policy instantiated on the chunk-2-fails
batch: sub-batches of size one, a per-chunk verdict list, and the
failed middle sub-batch replaced by a single failed verdict. -/
theorem embed_subbatch_failure_policy_witness :
    0 < c2p.batchSize ∧
    (((chunksOf c2p.batchSize (flatChunks [c2cf])).flatten = flatChunks [c2cf]) ∧
      (∀ b ∈ chunksOf c2p.batchSize (flatChunks [c2cf]), b.length ≤ c2p.batchSize) ∧
      ((computeEmbeddings c2p (flatChunks [c2cf])).length = (flatChunks [c2cf]).length) ∧
      (∀ bs1 b bs2, chunksOf c2p.batchSize (flatChunks [c2cf]) = bs1 ++ b :: bs2 →
        ((c2p.embed b = none ∨ ∀ es, c2p.embed b = some es → es.length ≠ b.length) →
          computeEmbeddings c2p (flatChunks [c2cf]) =
            (bs1.map (subBatchResult c2p)).flatten ++ List.replicate b.length none ++
              (bs2.map (subBatchResult c2p)).flatten) ∧
        (∀ es, c2p.embed b = some es → es.length = b.length →
          computeEmbeddings c2p (flatChunks [c2cf]) =
            (bs1.map (subBatchResult c2p)).flatten ++ es.map some ++
              (bs2.map (subBatchResult c2p)).flatten))) :=
  ⟨by decide, embed_subbatch_failure_policy c2p (by decide) [c2cf]⟩

end AutoTender

namespace AutoTender

/-- A provider that errors on every call. -/
def c6p : EmbeddingProvider := ⟨1, fun _ => none⟩

/-- A 1-chunk file for the new path a, unchanged on disk across runs. -/
def c6cf : ChunkedFile := ⟨"a", some 1, 1, "t", [⟨0, 1, 30⟩]⟩

/-- C6 counterexample: a first full run over the new file a completes
with the embedding provider failing, so nothing is persisted, and the
second scan — no filesystem change in between — emits the very same
entry again instead of zero entries. -/
theorem full_scan_idempotence_cex :
    (scanEntries [] [exEntry 1 "a" (some 1)]).updates = [exEntry 1 "a" (some 1)] ∧
    (scanEntries [] [exEntry 1 "a" (some 1)]).ranges = [] ∧
    embedFilesBatch c6p [c6cf] = [] ∧
    (scanEntries
      (persistOps [] ((scanEntries [] [exEntry 1 "a" (some 1)]).ranges.map PersistOp.del
        ++ (embedFilesBatch c6p [c6cf]).map PersistOp.put))
      [exEntry 1 "a" (some 1)]).updates = [exEntry 1 "a" (some 1)] := by
  decide

/-- C6 (amended): a second full scan over an unchanged live file list
emits zero updated entries, provided the first run's output was fully
persisted — every deletion range committed, and every entry the first
scan emitted committed as a record with that entry's path and
modification token, deletions ahead of the insertions, which is the
order the biased select produces since ranges are available during the
scan while records arrive only after chunking and embedding. A run
whose files were dropped by chunking or embedding failures re-emits
those files instead. -/
theorem full_scan_idempotence (db : Store) (live : List Entry)
    (files : List EmbeddedFile)
    (hdb : SortedKeys db) (hlive : SortedLive live)
    (hfiles : List.Forall₂ (fun f e => f.path = e.path ∧ f.mtime = e.mtime)
      files (scanEntries db live).updates) :
    (scanEntries
      (persistOps db ((scanEntries db live).ranges.map PersistOp.del
        ++ files.map PersistOp.put)) live).updates = [] :=
  second_scan_updates_nil
    (List.Pairwise.imp (fun h => keyLtB_iff.mp h) hdb)
    (List.Pairwise.imp (fun h => keyLtB_iff.mp h) hlive)
    hfiles

/-- C6 witness: persisting the one emitted record for the new file a
makes the second scan silent. -/
theorem full_scan_idempotence_witness :
    SortedKeys ([] : Store) ∧ SortedLive [exEntry 1 "a" (some 1)] ∧
    List.Forall₂ (fun (f : EmbeddedFile) (e : Entry) => f.path = e.path ∧ f.mtime = e.mtime)
      [⟨"a", some 1, [], "t"⟩] (scanEntries [] [exEntry 1 "a" (some 1)]).updates ∧
    (scanEntries
      (persistOps [] ((scanEntries [] [exEntry 1 "a" (some 1)]).ranges.map PersistOp.del
        ++ [(⟨"a", some 1, [], "t"⟩ : EmbeddedFile)].map PersistOp.put))
      [exEntry 1 "a" (some 1)]).updates = [] := by
  have hF : List.Forall₂ (fun (f : EmbeddedFile) (e : Entry) =>
      f.path = e.path ∧ f.mtime = e.mtime)
      [⟨"a", some 1, [], "t"⟩] (scanEntries [] [exEntry 1 "a" (some 1)]).updates := by
    rw [show (scanEntries [] [exEntry 1 "a" (some 1)]).updates = [exEntry 1 "a" (some 1)]
      from by decide]
    exact List.Forall₂.cons ⟨rfl, rfl⟩ List.Forall₂.nil
  exact ⟨by decide, by decide, hF,
    full_scan_idempotence [] [exEntry 1 "a" (some 1)] [⟨"a", some 1, [], "t"⟩]
      (by decide) (by decide) hF⟩

end AutoTender
